import Mathlib

/-!
Verification development for the 0xBitNet BitNet-b1.58 inference core
(`packages/rust/crates/oxbitnet`).

The Rust sources are shallowly embedded: pure functions become Lean
functions, stateful code becomes explicit state passing, machine integers
become `Nat`/`Int`, and `f32` values whose role in the verified properties
is purely order-theoretic are modelled as `WithBot ℚ` (with `⊥` playing
`f32::NEG_INFINITY`); transcendental steps (`exp`) and the RNG are
abstracted as explicit functional parameters, since the verified
properties do not depend on their values.
-/

namespace OxBitNet

/-- Logit values: finite `f32` values modelled as rationals, with `⊥`
modelling `f32::NEG_INFINITY` (`src/sampling.rs` uses no other non-finite
value on the paths modelled here). -/
abbrev F : Type := WithBot ℚ

/-! ### Sampler: `src/sampling.rs`

`sift_down` is a loop `loop { ... i = min }` in Rust; the loop variable
`i` strictly increases and stays below `n`, so the loop runs at most
`n - i` times.  We embed it with an explicit fuel argument initialised to
`n - i`; when the fuel is `0` we have `n ≤ i`, in which case the Rust loop
would also stop immediately (both children are out of range). -/

/-- One `sift_down(&mut heap, i, n, values)` call (`src/sampling.rs`,
`fn sift_down`), fuel-indexed.  `v` is the logits array (index access
`values[heap[l]]`), `n` the heap size, `h` the heap of indices. -/
def siftDownF {α : Type} [LinearOrder α] (v : Nat → α) (n : Nat) :
    Nat → List Nat → Nat → List Nat
  | 0, h, _ => h
  | fuel+1, h, i =>
    let l := 2*i+1
    let r := 2*i+2
    let m1 := if l < n ∧ v (h.getD l 0) < v (h.getD i 0) then l else i
    let m := if r < n ∧ v (h.getD r 0) < v (h.getD m1 0) then r else m1
    if m = i then h
    else siftDownF v n fuel ((h.set i (h.getD m 0)).set m (h.getD i 0)) m

/-- `sift_down(&mut heap, i, n, values)` from `src/sampling.rs`. -/
def siftDown {α : Type} [LinearOrder α] (v : Nat → α) (n : Nat)
    (h : List Nat) (i : Nat) : List Nat :=
  siftDownF v n (n - i) h i

/-- The heap build loop `for i in (0..(top_k / 2)).rev() { sift_down(..) }`
of `sample_token`; `buildPhase v k j h` performs the sifts at positions
`j-1, j-2, ..., 0`, so the whole loop is `buildPhase v k (k/2) (range k)`. -/
def buildPhase {α : Type} [LinearOrder α] (v : Nat → α) (k : Nat) :
    Nat → List Nat → List Nat
  | 0, h => h
  | j+1, h => buildPhase v k j (siftDown v k h j)

/-- The scan loop `for i in top_k..vocab_size { if logits[i] > logits[heap[0]]
{ heap[0] = i; sift_down(..) } }` of `sample_token`, over the remaining
candidate indices. -/
def insertLoop {α : Type} [LinearOrder α] (v : Nat → α) (k : Nat) :
    List Nat → List Nat → List Nat
  | h, [] => h
  | h, i :: rest =>
    if v (h.getD 0 0) < v i then
      insertLoop v k (siftDown v k (h.set 0 i) 0) rest
    else
      insertLoop v k h rest

/-- The complete top-k index selection of `sample_token`
(`src/sampling.rs` lines 36-52): build a `k`-element min-heap over the
first `k` indices and scan the rest. -/
def topkSelect {α : Type} [LinearOrder α] (v : Nat → α) (k V : Nat) :
    List Nat :=
  insertLoop v k (buildPhase v k (k/2) (List.range k)) (List.range' k (V - k))

/-- The threshold `logits[heap[0]]` with which `sample_token` filters. -/
def topkThreshold (l : List F) (k : Nat) : F :=
  (fun i => l.getD i ⊥) ((topkSelect (fun i => l.getD i ⊥) k l.length).getD 0 0)

/-- The top-k step of `sample_token` (`src/sampling.rs` lines 36-58):
if `0 < k < V`, every logit strictly below `logits[heap[0]]` is replaced
by `NEG_INFINITY`; otherwise the logits are unchanged. -/
def topkStep (l : List F) (k : Nat) : List F :=
  if 0 < k ∧ k < l.length then
    let t := topkThreshold l k
    l.map (fun x => if x < t then (⊥ : F) else x)
  else l

/-- The k-th largest element of a list (1-indexed): position `k-1` of the
list sorted in non-increasing order.  Used to state what the top-k filter
actually selects. -/
def kthLargest (l : List F) (k : Nat) : F :=
  (List.insertionSort (· ≥ ·) l).getD (k-1) ⊥

/-- One iteration of the repetition-penalty loop of `sample_token`
(`src/sampling.rs` lines 15-24): out-of-range token ids are skipped, a
positive logit is divided by the penalty, a non-positive one multiplied.
`⊥` (= `-∞`) is not `> 0`, and `-∞ * p = -∞` for the positive penalties
this runtime uses, which `WithBot.map (· * pen)` reproduces. -/
def applyPenaltyOne (pen : ℚ) (l : List F) (tid : Nat) : List F :=
  if tid < l.length then
    l.set tid
      (if ((0 : ℚ) : F) < l.getD tid ⊥ then WithBot.map (· / pen) (l.getD tid ⊥)
       else WithBot.map (· * pen) (l.getD tid ⊥))
  else l

/-- The repetition-penalty phase of `sample_token` (guard
`repeat_penalty != 1.0 && !recent_tokens.is_empty()`). -/
def penaltyPhase (pen : ℚ) (recent : List Nat) (l : List F) : List F :=
  if pen ≠ 1 ∧ recent ≠ [] then recent.foldl (applyPenaltyOne pen) l else l

/-- The temperature phase of `sample_token` (guard `temperature != 1.0`;
each logit is multiplied by `inv_temp = 1.0 / temperature`). -/
def tempPhase (temp : ℚ) (l : List F) : List F :=
  if temp ≠ 1 then l.map (WithBot.map (· * (1 / temp))) else l

/-- `(*logit - max_val).exp()` for one logit, with the `f32` exponential
abstracted as `e : ℚ → ℚ`.  `exp(-∞ - m) = 0`; the case of a finite logit
with `m = ⊥` cannot occur (`m` is the maximum of the list). -/
def fexpSub (e : ℚ → ℚ) (x m : F) : ℚ :=
  if x = ⊥ ∨ m = ⊥ then 0 else e (x.unbot' 0 - m.unbot' 0)

/-- The probability weights `sample_token` accumulates after the softmax
step (`src/sampling.rs` lines 61-66), as a function of the original
logits and the sampling options. -/
def sampleProbs (e : ℚ → ℚ) (l : List F) (temp : ℚ) (k : Nat) (pen : ℚ)
    (recent : List Nat) : List ℚ :=
  let l3 := topkStep (tempPhase temp (penaltyPhase pen recent l)) k
  let m := l3.foldl max ⊥
  l3.map (fun x => fexpSub e x m)

/-- The sampling target `r = rng.random::<f32>() * sum` of `sample_token`,
with the RNG draw abstracted as `rand`. -/
def sampleR (e : ℚ → ℚ) (rand : ℚ) (l : List F) (temp : ℚ) (k : Nat)
    (pen : ℚ) (recent : List Nat) : ℚ :=
  rand * ((sampleProbs e l temp k pen recent).foldl (· + ·) 0)

/-- The inverse-CDF scan `for (i, &logit) in logits.iter().enumerate()
{ cumsum += logit; if cumsum >= r { return i; } }` of `sample_token`. -/
def selectGo : List ℚ → ℚ → ℚ → Nat → Option Nat
  | [], _, _, _ => none
  | p :: rest, c, r, i => if r ≤ c + p then some i else selectGo rest (c + p) r (i+1)

/-- `sample_token(logits, temperature, top_k, repeat_penalty, recent_tokens)`
(`src/sampling.rs`), with the `f32` exponential and the RNG draw passed in
as `e` and `rand`.  Falls through to `vocab_size - 1` when the cumulative
sum never reaches `r`. -/
def sampleToken (e : ℚ → ℚ) (rand : ℚ) (l : List F) (temp : ℚ) (k : Nat)
    (pen : ℚ) (recent : List Nat) : Nat :=
  let probs := sampleProbs e l temp k pen recent
  let r := sampleR e rand l temp k pen recent
  match selectGo probs 0 r 0 with
  | some i => i
  | none => l.length - 1

/-! ### Generation engine: `src/lib.rs`, `BitNet::generate_from_ids`

The model forward/readback pair and the tokenizer are collaborators; they
are abstracted as oracles: `readL t` is the logits vector read back at
loop iteration `t` (`None` models a `read_logits` error, on which the
code `break`s), `decodeOne id` is `tokenizer.decode_one(id)` (`None`
models `Err(_)`), and `rands t` is the RNG draw of iteration `t`. -/

/-- Options `GenerateOptions` from `src/lib.rs`. -/
structure GenOpts where
  maxTokens : Nat
  temperature : ℚ
  topK : Nat
  repeatPenalty : ℚ
  repeatLastN : Nat
deriving DecidableEq

/-- The stop ids active during generation (`eos_id`, `eot_id`, `im_end_id`
from the tokenizer). -/
structure GenStops where
  eos : Nat
  eot : Option Nat
  imEnd : Option Nat
deriving DecidableEq

/-- Observable trace of one `generate_from_ids` stream: the strings
yielded, the sampled ids that were accepted (pushed onto
`recent_tokens`), and the argument of every `model.forward` call. -/
structure GenTrace where
  emitted : List String
  accepted : List Nat
  forwards : List (List Nat)
deriving DecidableEq

/-- The decode loop `for _ in 0..max_tokens { ... }` of
`generate_from_ids` (`src/lib.rs` lines 154-187).  `rem` is the remaining
iteration budget, `t` the iteration index, `recent` the `recent_tokens`
vector. -/
def genLoop (readL : Nat → Option (List F)) (decodeOne : Nat → Option String)
    (e : ℚ → ℚ) (rands : Nat → ℚ) (opts : GenOpts) (stops : GenStops) :
    Nat → Nat → List Nat → GenTrace → GenTrace
  | 0, _, _, tr => tr
  | rem+1, t, recent, tr =>
    match readL t with
    | none => tr
    | some logitsData =>
      let window := if 0 < opts.repeatLastN then
          recent.drop (recent.length - opts.repeatLastN) else recent
      let next := sampleToken e (rands t) logitsData opts.temperature
          opts.topK opts.repeatPenalty window
      if next = stops.eos ∨ stops.eot = some next ∨ stops.imEnd = some next then tr
      else
        genLoop readL decodeOne e rands opts stops rem (t+1) (recent ++ [next])
          { emitted := tr.emitted ++ (match decodeOne next with
              | some s => [s]
              | none => [])
            accepted := tr.accepted ++ [next]
            forwards := tr.forwards ++ [[next]] }

/-- `BitNet::generate_from_ids` (`src/lib.rs` lines 130-189): prefill
forward with the whole input id vector, then the decode loop.  (The
initial `reset_kv_cache` is modelled in `sessionGenerate` below.) -/
def generateFromIds (readL : Nat → Option (List F))
    (decodeOne : Nat → Option String) (e : ℚ → ℚ) (rands : Nat → ℚ)
    (opts : GenOpts) (stops : GenStops) (inputIds : List Nat) : GenTrace :=
  genLoop readL decodeOne e rands opts stops opts.maxTokens 0 []
    { emitted := [], accepted := [], forwards := [inputIds] }

/-! ### Model state: `src/nn/model.rs` and `src/nn/attention.rs`

Per-layer KV caches (`KvCache.seq_len`) and the bind-group caches that
`reset_kv_cache` clears.  The GPU buffer contents are irrelevant to the
claims and are not modelled; the bind-group caches are abstracted as
lists of cached keys. -/

/-- The mutable state of a built `BitNetModel` that the verified claims
are about: one `seq_len` per layer (`KvCache.seq_len`), the per-layer
bind-group caches, the LM-head bind-group cache, and the `max_seq_len`
the caches were created with (4096 at the `BitNet::load` call site). -/
structure ModelSt where
  seqLens : List Nat
  layerBg : List (List Nat)
  lmHeadBg : List Nat
  maxSeqLen : Nat
deriving DecidableEq

/-- `BitNetModel::forward(token_ids)` (`src/nn/model.rs` lines 189-254),
restricted to its effect on the KV caches: inside the layer loop each
layer executes with the old `seq_len` and then `self.kv_caches[i].seq_len
+= n` runs, so the net effect of one forward with `n` tokens is `+= n` on
every layer, with no clamping against `max_seq_len`. -/
def forwardStep (st : ModelSt) (tokenIds : List Nat) : ModelSt :=
  { st with seqLens := st.seqLens.map (· + tokenIds.length) }

/-- `BitNetModel::reset_kv_cache` (`src/nn/model.rs` lines 288-298):
every layer's `seq_len` becomes 0 and all bind-group caches are
cleared. -/
def resetKvCache (st : ModelSt) : ModelSt :=
  { st with
    seqLens := st.seqLens.map (fun _ => 0)
    layerBg := st.layerBg.map (fun _ => [])
    lmHeadBg := [] }

/-- `BitNet::dispose` (`src/lib.rs` lines 192-194): its entire body is
`self.model.reset_kv_cache()`. -/
def dispose (st : ModelSt) : ModelSt := resetKvCache st

/-- The model state after a sequence of forward calls. -/
def applyForwards (st : ModelSt) (calls : List (List Nat)) : ModelSt :=
  calls.foldl forwardStep st

/-- Error type `BitNetError` (`src/error.rs`), restricted to the variants
reachable from the embedded code.  The two `GgufParse(String)` messages
are distinguished structurally instead of by formatted text. -/
inductive BErr where
  | invalidGgufMagic (m : Nat)
  | unsupportedGgufVersion (v : Nat)
  | unsupportedGgmlType (t : Nat)
  | unknownMetadataType (t : Nat)
  | ggufParseEof (off need had : Nat)
  | ggufParseUtf8
  | missingWeight (name : List Nat)
  | notLoaded
  | bufferMap
deriving DecidableEq

/-- A `generate`/`forward` call on a session, with its (absent) failure
channel made explicit: `BitNetModel::forward` is infallible and neither
it nor `BitNet::generate` consults any disposed flag, so the result is
always `ok` — in particular never `BitNetError::NotLoaded`, which no code
path in the crate constructs. -/
def sessionForward (st : ModelSt) (tokenIds : List Nat) :
    Except BErr ModelSt :=
  .ok (forwardStep st tokenIds)

/-- A whole `generate` call on a session: `reset_kv_cache`, then the
stream of `generateFromIds`, whose forward calls drive the KV state. -/
def sessionGenerate (readL : Nat → Option (List F))
    (decodeOne : Nat → Option String) (e : ℚ → ℚ) (rands : Nat → ℚ)
    (opts : GenOpts) (stops : GenStops) (st : ModelSt)
    (inputIds : List Nat) : ModelSt × GenTrace :=
  let tr := generateFromIds readL decodeOne e rands opts stops inputIds
  (applyForwards (resetKvCache st) tr.forwards, tr)

/-! ### Container parser: `src/model/gguf.rs`

The parser is embedded as a state monad over `(data, offset)`.  Each
primitive read calls `ensure` first, exactly like the Rust code; an
access that `ensure` did not cover, as well as the two operations at
which the Rust code can actually die (`div_ceil(0)` and unbounded
recursion), are modelled by a distinguished `crash` outcome. -/

/-- Result of a parsing step: success with new offset, a returned error,
or an abnormal termination (Rust panic / stack exhaustion). -/
inductive PRes (α : Type) where
  | ok : α → Nat → PRes α
  | err : BErr → PRes α
  | crash : PRes α

/-- Parsing computations: `data → offset → PRes`. -/
abbrev PM (α : Type) : Type := List Nat → Nat → PRes α

instance : Monad PM where
  pure a := fun _ off => .ok a off
  bind p f := fun d off =>
    match p d off with
    | .ok a off2 => f a d off2
    | .err e => .err e
    | .crash => .crash

/-- Raise a `BitNetError` (an early `return Err(..)`). -/
def pfail {α : Type} (e : BErr) : PM α := fun _ _ => .err e

/-- Abnormal termination. -/
def pcrash {α : Type} : PM α := fun _ _ => .crash

/-- The current `self.offset`. -/
def curOff : PM Nat := fun _ off => .ok off off

/-- `GgufParser::ensure` (`src/model/gguf.rs` lines 235-246): fail with
the EOF `GgufParse` error when `offset + n > data.len()`. -/
def ensure (n : Nat) : PM Unit := fun d off =>
  if d.length < off + n then .err (.ggufParseEof off n d.length) else .ok () off

/-- The raw (unchecked) slice access `self.data[self.offset..self.offset+n]`;
out of bounds it would be a Rust panic, modelled as `crash`. -/
def takeRaw (n : Nat) : PM (List Nat) := fun d off =>
  if off + n ≤ d.length then .ok ((d.drop off).take n) (off + n) else .crash

/-- `ensure` followed by the slice access, the common body of all
primitive readers. -/
def readBytes (n : Nat) : PM (List Nat) := do
  ensure n
  takeRaw n

/-- Little-endian value of a byte list (`uNN::from_le_bytes`). -/
def leVal (bs : List Nat) : Nat := bs.foldr (fun b acc => b + 256 * acc) 0

/-- `GgufParser::read_u8`. -/
def readU8 : PM Nat := leVal <$> readBytes 1

/-- `GgufParser::read_u16`. -/
def readU16 : PM Nat := leVal <$> readBytes 2

/-- `GgufParser::read_u32`. -/
def readU32 : PM Nat := leVal <$> readBytes 4

/-- `GgufParser::read_u64`. -/
def readU64 : PM Nat := leVal <$> readBytes 8

/-- Two's-complement reinterpretation of a `w`-bit unsigned value
(`as i8` / `iNN::from_le_bytes`). -/
def toSigned (w n : Nat) : Int := if n < 2^(w-1) then (n : Int) else (n : Int) - 2^w

/-- `GgufParser::read_i8` (`read_u8()? as i8`). -/
def readI8 : PM Int := toSigned 8 <$> readU8

/-- `GgufParser::read_i16`. -/
def readI16 : PM Int := toSigned 16 <$> readU16

/-- `GgufParser::read_i32`. -/
def readI32 : PM Int := toSigned 32 <$> readU32

/-- `GgufParser::read_i64`. -/
def readI64 : PM Int := toSigned 64 <$> readU64

/-- Continuation-byte test of the UTF-8 validator. -/
def utf8Cont (b : Nat) : Bool := 0x80 ≤ b && b ≤ 0xBF

/-- Validity of a byte sequence as UTF-8, as checked by Rust's
`std::str::from_utf8` (RFC 3629: no overlong forms, no surrogates, no
code points above U+10FFFF). -/
def utf8Valid : List Nat → Bool
  | [] => true
  | b :: bs =>
    if b ≤ 0x7F then utf8Valid bs
    else if 0xC2 ≤ b && b ≤ 0xDF then
      match bs with
      | c1 :: bs2 => utf8Cont c1 && utf8Valid bs2
      | [] => false
    else if 0xE0 ≤ b && b ≤ 0xEF then
      match bs with
      | c1 :: c2 :: bs2 =>
        (if b = 0xE0 then 0xA0 ≤ c1 && c1 ≤ 0xBF
         else if b = 0xED then 0x80 ≤ c1 && c1 ≤ 0x9F
         else utf8Cont c1) && utf8Cont c2 && utf8Valid bs2
      | _ => false
    else if 0xF0 ≤ b && b ≤ 0xF4 then
      match bs with
      | c1 :: c2 :: c3 :: bs2 =>
        (if b = 0xF0 then 0x90 ≤ c1 && c1 ≤ 0xBF
         else if b = 0xF4 then 0x80 ≤ c1 && c1 ≤ 0x8F
         else utf8Cont c1) && utf8Cont c2 && utf8Cont c3 && utf8Valid bs2
      | _ => false
    else false

/-- `GgufParser::read_string` (`src/model/gguf.rs` lines 315-322): u64
length, `ensure`, UTF-8 validation (failure is a `GgufParse` error), then
advance.  The string is kept as its byte sequence. -/
def readString : PM (List Nat) := do
  let len ← readU64
  ensure len
  let bs ← takeRaw len
  if utf8Valid bs then pure bs else pfail .ggufParseUtf8

/-- `GgufValue` (`src/model/gguf.rs`); `f32`/`f64` payloads are kept as
raw little-endian bit patterns, strings as byte lists. -/
inductive GVal where
  | u8 (n : Nat)
  | i8 (n : Int)
  | u16 (n : Nat)
  | i16 (n : Int)
  | u32 (n : Nat)
  | i32 (n : Int)
  | f32 (bits : Nat)
  | boolV (b : Bool)
  | str (bytes : List Nat)
  | u64 (n : Nat)
  | i64 (n : Int)
  | f64 (bits : Nat)
  | arr (vs : List GVal)

/-- `GgufValue::as_u32`: `U32` as is, `I32` reinterpreted as `u32`,
`U8`/`U16` widened, everything else `None`. -/
def gvAsU32 : GVal → Option Nat
  | .u32 v => some v
  | .i32 v => some (v % (2^32 : Int)).toNat
  | .u8 v => some v
  | .u16 v => some v
  | _ => none

/-- `GgufParser::read_value_of_type` (`src/model/gguf.rs` lines 206-231).
The array case recurses into element values; Rust bounds that recursion
only by the call stack, so the embedding carries a fuel that drops by one
per array nesting level, `crash` on exhaustion.  Each nesting level first
consumes 12 bytes (inner type + length), so a fuel of `data.length + 1`
can never run out. -/
def readValueOfType : Nat → Nat → PM GVal
  | 0, _ => pcrash
  | fuel+1, ty =>
    if ty = 0 then GVal.u8 <$> readU8
    else if ty = 1 then GVal.i8 <$> readI8
    else if ty = 2 then GVal.u16 <$> readU16
    else if ty = 3 then GVal.i16 <$> readI16
    else if ty = 4 then GVal.u32 <$> readU32
    else if ty = 5 then GVal.i32 <$> readI32
    else if ty = 6 then GVal.f32 <$> readU32
    else if ty = 7 then (fun n => GVal.boolV (n ≠ 0)) <$> readU8
    else if ty = 8 then GVal.str <$> readString
    else if ty = 9 then do
      let elemTy ← readU32
      let len ← readU64
      let vs ← (List.range len).foldlM (fun acc _ => do
        let v ← readValueOfType fuel elemTy
        pure (acc ++ [v])) []
      pure (GVal.arr vs)
    else if ty = 10 then GVal.u64 <$> readU64
    else if ty = 11 then GVal.i64 <$> readI64
    else if ty = 12 then GVal.f64 <$> readU64
    else pfail (.unknownMetadataType ty)

/-- ASCII byte sequence of a string literal (all names in the schema are
ASCII, where this agrees with UTF-8). -/
def ascii (s : String) : List Nat := s.data.map Char.toNat

/-- The `"general.alignment"` metadata key. -/
def alignmentKey : List Nat := ascii "general.alignment"

/-- `HashMap::insert` on the metadata table (later keys overwrite). -/
def metaInsert (md : List (List Nat × GVal)) (k : List Nat) (v : GVal) :
    List (List Nat × GVal) :=
  md.filter (fun e => !(e.1 == k)) ++ [(k, v)]

/-- `HashMap::get` on the metadata table. -/
def metaGet (md : List (List Nat × GVal)) (k : List Nat) : Option GVal :=
  (md.find? (fun e => e.1 == k)).map (·.2)

/-- `metadata.get("general.alignment").and_then(|v| v.as_u32()).unwrap_or(32)`. -/
def metaAlignment (md : List (List Nat × GVal)) : Nat :=
  ((metaGet md alignmentKey).bind gvAsU32).getD 32

/-- `GgufTensorInfo` (`src/model/gguf.rs`). -/
structure TInfo where
  name : List Nat
  nDims : Nat
  shape : List Nat
  ttype : Nat
  offset : Nat
deriving DecidableEq

/-- `GgufFile` (`src/model/gguf.rs`). -/
structure GgufFileE where
  version : Nat
  tensorCount : Nat
  metadata : List (List Nat × GVal)
  tensors : List TInfo
  tensorDataOff : Nat

/-- The metadata loop of `GgufParser::parse` (`src/model/gguf.rs` lines
158-163): `metadata_kv_count` iterations of key, value-type tag, value. -/
def parseMeta (fuel metaCount : Nat) : PM (List (List Nat × GVal)) :=
  (List.range metaCount).foldlM (fun md _ => do
    let key ← readString
    let vty ← readU32
    let v ← readValueOfType fuel vty
    pure (metaInsert md key v)) []

/-- The shape loop of one tensor-info record. -/
def parseShape (nd : Nat) : PM (List Nat) :=
  (List.range nd).foldlM (fun sh _ => do
    let x ← readU64
    pure (sh ++ [x])) []

/-- The tensor-directory loop of `GgufParser::parse` (`src/model/gguf.rs`
lines 166-183). -/
def parseTensorInfos (tensorCount : Nat) : PM (List TInfo) :=
  (List.range tensorCount).foldlM (fun ts _ => do
    let name ← readString
    let nd ← readU32
    let shape ← parseShape nd
    let tt ← readU32
    let toff ← readU64
    pure (ts ++ [TInfo.mk name nd shape tt toff])) []

/-- The tail of `GgufParser::parse` (`src/model/gguf.rs` lines 186-198):
`tensor_data_offset = self.offset.div_ceil(alignment) * alignment`, where
the metadata-controlled alignment defaults to 32.  Rust's `div_ceil`
panics when the alignment is 0, modelled by `crash`. -/
def parseFinish (version tensorCount : Nat) (md : List (List Nat × GVal))
    (ts : List TInfo) : PM GgufFileE := do
  let align := metaAlignment md
  let off ← curOff
  if align = 0 then pcrash else
  pure { version := version, tensorCount := tensorCount, metadata := md,
         tensors := ts, tensorDataOff := ((off + align - 1) / align) * align }

/-- The counts, metadata, tensor directory and alignment tail of
`GgufParser::parse`, after the header checks. -/
def parseBody (fuel version : Nat) : PM GgufFileE := do
  let tensorCount ← readU64
  let metaCount ← readU64
  let md ← parseMeta fuel metaCount
  let ts ← parseTensorInfos tensorCount
  parseFinish version tensorCount md ts

/-- `GgufParser::parse` (`src/model/gguf.rs` lines 144-199). -/
def parseM (fuel : Nat) : PM GgufFileE := do
  let magic ← readU32
  let _ ← (if magic = 0x46554747 then pure ()
    else pfail (.invalidGgufMagic magic) : PM Unit)
  let version ← readU32
  let _ ← (if 2 ≤ version ∧ version ≤ 3 then pure ()
    else pfail (.unsupportedGgufVersion version) : PM Unit)
  parseBody fuel version

/-- Whether a parse outcome is the `InvalidGgufMagic` error. -/
def presIsInvalidMagic : PRes GgufFileE → Bool
  | .err (.invalidGgufMagic _) => true
  | _ => false

/-- Whether a parse outcome is the `UnsupportedGgufVersion` error. -/
def presIsUnsupportedVersion : PRes GgufFileE → Bool
  | .err (.unsupportedGgufVersion _) => true
  | _ => false

/-- The errors that the parser components after the header checks can
produce (EOF, invalid UTF-8, unknown metadata type); in particular
neither header error. -/
def errBenign : BErr → Bool
  | .ggufParseEof _ _ _ => true
  | .ggufParseUtf8 => true
  | .unknownMetadataType _ => true
  | _ => false

/-- `GgufParser::new(data)` followed by `parse()`. -/
def parseGguf (d : List Nat) : PRes GgufFileE := parseM (d.length + 1) d 0

/-! ### Loader: `src/model/loader.rs` and `src/model/weights.rs`

The weight store maps logical tensor names to the byte payloads written
into the corresponding GPU buffers; names are byte lists. -/

/-- `ggml_type_size` (`src/model/gguf.rs` lines 38-53), bytes per element
as an exact rational (every table entry is dyadic, so `f64` arithmetic on
them is exact). -/
def ggmlTypeSize (ty : Nat) : Except BErr ℚ :=
  if ty = 0 then .ok 4
  else if ty = 1 then .ok 2
  else if ty = 16 then .ok 1
  else if ty = 17 then .ok 2
  else if ty = 18 then .ok 4
  else if ty = 27 then .ok 8
  else if ty = 28 then .ok 8
  else if ty = 30 then .ok 2
  else if ty = 34 then .ok (54/256)
  else if ty = 35 then .ok (66/256)
  else if ty = 36 then .ok (1/4)
  else .error (.unsupportedGgmlType ty)

/-- The per-tensor byte size computed by `load_gguf` (`src/model/loader.rs`
lines 108-114): `num_elements.div_ceil(4) + 32` for I2_S (type 36), else
`(num_elements as f64 * elem_size).ceil() as usize`. -/
def tensorByteSize (t : TInfo) : Except BErr Nat :=
  let numel := t.shape.foldl (· * ·) 1
  if t.ttype = 36 then .ok ((numel + 3) / 4 + 32)
  else
    match ggmlTypeSize t.ttype with
    | .ok sz => .ok (Int.toNat ⌈(numel : ℚ) * sz⌉)
    | .error e => .error e

/-- The weight store (`WeightStore.buffers`): name/bytes pairs with
`HashMap`-style lookup. -/
abbrev Store : Type := List (List Nat × List Nat)

/-- `WeightStore::get`, restricted to the byte payload. -/
def storeGet (st : Store) (n : List Nat) : Option (List Nat) :=
  (st.find? (fun e => e.1 == n)).map (·.2)

/-- `WeightStore::has`. -/
def storeHas (st : Store) (n : List Nat) : Bool := (storeGet st n).isSome

/-- `WeightStore::upload` (`src/model/weights.rs` lines 23-39): record
`name → bytes`, overwriting any previous entry.  (The GPU buffer is
allocated with size `max(len, 4)`; only the written bytes are modelled.) -/
def upload (st : Store) (n bytes : List Nat) : Store :=
  st.filter (fun e => !(e.1 == n)) ++ [(n, bytes)]

/-- Decimal ASCII digits of a shard index. -/
def natDigits (k : Nat) : List Nat := (Nat.toDigits 10 k).map Char.toNat

/-- The `.shard_{k}` suffix of `WeightStore::upload_sharded`. -/
def shardSuffix (k : Nat) : List Nat := ascii ".shard_" ++ natDigits k

/-- The shard loop of `upload_sharded` (`src/model/weights.rs` lines
53-62), fuel-indexed; every iteration with `max_binding_size > 0`
advances `offset` by at least one byte, so a fuel of `data.length + 1`
never runs out (with `max_binding_size = 0` the Rust loop would not
terminate). -/
def shardLoop (maxB : Nat) (name data : List Nat) :
    Nat → Store → Nat → Nat → Store
  | 0, st, _, _ => st
  | fuel+1, st, off, idx =>
    if off < data.length then
      let e := min (off + maxB) data.length
      shardLoop maxB name data fuel
        (upload st (name ++ shardSuffix idx) ((data.drop off).take (e - off)))
        e (idx + 1)
    else st

/-- `WeightStore::upload_sharded` (`src/model/weights.rs` lines 42-69):
data within the binding limit is uploaded whole; larger data is split
into `.shard_{k}` entries and the base name is additionally bound to
shard 0 when not already present. -/
def uploadSharded (st : Store) (name data : List Nat) (maxB : Nat) : Store :=
  if data.length ≤ maxB then upload st name data
  else
    let st2 := shardLoop maxB name data (data.length + 1) st 0 0
    if storeHas st2 name then st2
    else
      match storeGet st2 (name ++ shardSuffix 0) with
      | some d0 => st2 ++ [(name, d0)]
      | none => st2

/-- `str::strip_prefix`: strip a leading pattern. -/
def dropPfx (pat l : List Nat) : Option (List Nat) :=
  if l.take pat.length = pat then some (l.drop pat.length) else none

/-- `rest.find('.')` followed by the split into `rest[..dot]` and
`rest[dot+1..]` used by `remap_gguf_name`. -/
def splitAtByte (b : Nat) (l : List Nat) : Option (List Nat × List Nat) :=
  let pre := l.takeWhile (fun x => !(x == b))
  if pre.length < l.length then some (pre, l.drop (pre.length + 1)) else none

/-- The per-component mapping table of `remap_gguf_name`
(`src/model/loader.rs` lines 195-207). -/
def remapComponent (comp : List Nat) : Option (List Nat) :=
  if comp = ascii "attn_q.weight" then some (ascii "self_attn.q_proj.weight")
  else if comp = ascii "attn_k.weight" then some (ascii "self_attn.k_proj.weight")
  else if comp = ascii "attn_v.weight" then some (ascii "self_attn.v_proj.weight")
  else if comp = ascii "attn_output.weight" then some (ascii "self_attn.o_proj.weight")
  else if comp = ascii "attn_norm.weight" then some (ascii "input_layernorm.weight")
  else if comp = ascii "ffn_norm.weight" then some (ascii "post_attention_layernorm.weight")
  else if comp = ascii "attn_sub_norm.weight" then some (ascii "self_attn.sub_norm.weight")
  else if comp = ascii "ffn_sub_norm.weight" then some (ascii "mlp.sub_norm.weight")
  else if comp = ascii "ffn_up.weight" then some (ascii "mlp.up_proj.weight")
  else if comp = ascii "ffn_down.weight" then some (ascii "mlp.down_proj.weight")
  else if comp = ascii "ffn_gate.weight" then some (ascii "mlp.gate_proj.weight")
  else none

/-- `remap_gguf_name` (`src/model/loader.rs` lines 180-214). -/
def remapGgufName (name : List Nat) : List Nat :=
  if name = ascii "token_embd.weight" then ascii "model.embed_tokens.weight"
  else if name = ascii "output_norm.weight" then ascii "model.norm.weight"
  else if name = ascii "output.weight" then ascii "lm_head.weight"
  else
    match dropPfx (ascii "blk.") name with
    | some rest =>
      match splitAtByte 46 rest with
      | some (layer, comp) =>
        let base := ascii "model.layers." ++ layer ++ [46]
        match remapComponent comp with
        | some mapped => base ++ mapped
        | none => base ++ comp
      | none => name
    | none => name

/-- `str::replace(pat, rep)` (all non-overlapping occurrences, left to
right), fuel-indexed by the input length (each step consumes at least one
byte, so the fuel never runs out). -/
def replaceAllF (pat rep : List Nat) : Nat → List Nat → List Nat
  | 0, l => l
  | _+1, [] => []
  | fuel+1, c :: rest =>
    if pat ≠ [] ∧ (c :: rest).take pat.length = pat then
      rep ++ replaceAllF pat rep fuel ((c :: rest).drop pat.length)
    else c :: replaceAllF pat rep fuel rest

/-- `str::replace(pat, rep)` as used by
`hf_name.replace(".weight", ".weight_scale")`. -/
def replaceAll (pat rep l : List Nat) : List Nat := replaceAllF pat rep l.length l

/-- IEEE-754 half → single conversion on raw bit patterns, as performed
by `half::f16::to_f32` in `convert_f16_to_f32`: sign preserved, exponent
rebiased, subnormal halves normalised, Inf/NaN mapped with the payload
shifted into the single-precision fraction. -/
def f16ToF32Bits (h : Nat) : Nat :=
  let s := h / 32768 % 2
  let e := h / 1024 % 32
  let m := h % 1024
  if e = 31 then s * 2^31 + 255 * 2^23 + m * 2^13
  else if e = 0 then
    if m = 0 then s * 2^31
    else
      let p := Nat.log2 m
      s * 2^31 + (103 + p) * 2^23 + (m - 2^p) * 2^(23 - p)
  else s * 2^31 + (e + 112) * 2^23 + m * 2^13

/-- Little-endian byte encoding of a `w`-byte value (`to_le_bytes`). -/
def leBytes : Nat → Nat → List Nat
  | 0, _ => []
  | w+1, v => (v % 256) :: leBytes w (v / 256)

/-- `convert_f16_to_f32` (`src/model/loader.rs` lines 170-178). -/
def convertF16ToF32 (src : List Nat) (numElements : Nat) : List Nat :=
  (List.range numElements).flatMap (fun i =>
    leBytes 4 (f16ToF32Bits (src.getD (2*i) 0 + 256 * src.getD (2*i+1) 0)))

/-- Outcome of the loader: the final store, a returned error, or a Rust
panic (slice indexing out of bounds). -/
inductive LRes where
  | ok : Store → LRes
  | err : BErr → LRes
  | crash : LRes
deriving DecidableEq

/-- The body of the per-tensor loop of `load_gguf` (`src/model/loader.rs`
lines 105-157).  `dataOff0` is `gguf.tensor_data_offset`; the slice
`&data[data_offset..data_offset + byte_size]` panics when out of range
(`crash`).  For I2_S the round trip `f32::from_le_bytes` /
`f32::to_le_bytes` on the trailing scale is the identity on the 4 bytes,
so the repeated scale block is modelled directly as those bytes. -/
def processTensor (data : List Nat) (dataOff0 maxB : Nat) (st : Store)
    (t : TInfo) : LRes :=
  let dataOffset := dataOff0 + t.offset
  let numel := t.shape.foldl (· * ·) 1
  match tensorByteSize t with
  | .error e => .err e
  | .ok byteSize =>
    if dataOffset + byteSize ≤ data.length then
      let tensorData := (data.drop dataOffset).take byteSize
      let hfName := remapGgufName t.name
      if t.ttype = 36 then
        let packedBytes := (numel + 3) / 4
        let weightData := tensorData.take packedBytes
        let st1 := uploadSharded st hfName weightData maxB
        let scaleBytes := (tensorData.drop packedBytes).take 4
        let outDim := t.shape.getD 1 1
        let scaleName := replaceAll (ascii ".weight") (ascii ".weight_scale") hfName
        LRes.ok (upload st1 scaleName ((List.replicate outDim scaleBytes).flatten))
      else if t.ttype = 1 then
        if hfName = ascii "model.embed_tokens.weight" then
          LRes.ok (uploadSharded st hfName tensorData maxB)
        else
          LRes.ok (uploadSharded st hfName (convertF16ToF32 tensorData numel) maxB)
      else
        LRes.ok (uploadSharded st hfName tensorData maxB)
    else LRes.crash

/-- The tensor loop of `load_gguf`, aborting on the first error. -/
def loadLoop (data : List Nat) (dataOff0 maxB : Nat) :
    Store → List TInfo → LRes
  | st, [] => .ok st
  | st, t :: rest =>
    match processTensor data dataOff0 maxB st t with
    | .ok st2 => loadLoop data dataOff0 maxB st2 rest
    | .err e => .err e
    | .crash => .crash

/-- The slice of `ModelConfig` the loader manipulates
(`src/model/config.rs`). -/
structure ConfigE where
  vocabSize : Nat
  hiddenSize : Nat
  intermediateSize : Nat
  numHiddenLayers : Nat
  numAttentionHeads : Nat
  numKeyValueHeads : Nat
  tieWordEmbeddings : Bool
deriving DecidableEq

/-- `ModelConfig::head_dim`. -/
def headDim (c : ConfigE) : Nat := c.hiddenSize / c.numAttentionHeads

/-- `1.0f32.to_le_bytes()`. -/
def oneF32 : List Nat := [0, 0, 128, 63]

/-- The seven per-layer `weight_scale` names and lengths of
`create_dummy_scales` (`src/model/loader.rs` lines 289-320). -/
def dummyEntries (cfg : ConfigE) (i : Nat) : List (List Nat × Nat) :=
  let p := ascii "model.layers." ++ natDigits i
  [ (p ++ ascii ".self_attn.q_proj.weight_scale",
      cfg.numAttentionHeads * headDim cfg),
    (p ++ ascii ".self_attn.k_proj.weight_scale",
      cfg.numKeyValueHeads * headDim cfg),
    (p ++ ascii ".self_attn.v_proj.weight_scale",
      cfg.numKeyValueHeads * headDim cfg),
    (p ++ ascii ".self_attn.o_proj.weight_scale", cfg.hiddenSize),
    (p ++ ascii ".mlp.up_proj.weight_scale", cfg.intermediateSize),
    (p ++ ascii ".mlp.down_proj.weight_scale", cfg.hiddenSize),
    (p ++ ascii ".mlp.gate_proj.weight_scale", cfg.intermediateSize) ]

/-- One `if !store.has(&name) { store.upload(&name, all-ones) }` step of
`create_dummy_scales`. -/
def addDummy (st : Store) (e : List Nat × Nat) : Store :=
  if storeHas st e.1 then st
  else upload st e.1 ((List.replicate e.2 oneF32).flatten)

/-- `create_dummy_scales` (`src/model/loader.rs` lines 286-339). -/
def createDummyScales (st : Store) (cfg : ConfigE) : Store :=
  let st2 := (List.range cfg.numHiddenLayers).foldl
    (fun s i => (dummyEntries cfg i).foldl addDummy s) st
  addDummy st2 (ascii "lm_head.weight_scale", cfg.vocabSize)

/-- The tied-embedding detection of `load_gguf` (`src/model/loader.rs`
lines 86-88): `config.tie_word_embeddings = !tensors.any(|t| t.name ==
"output.weight")`. -/
def loadConfig (baseCfg : ConfigE) (tensors : List TInfo) : ConfigE :=
  { baseCfg with
    tieWordEmbeddings := !(tensors.any (fun t => t.name == ascii "output.weight")) }

/-- `load_gguf` after parsing (`src/model/loader.rs` lines 84-168):
derive the config (whose `tie_word_embeddings` is overwritten from the
tensor directory; `config_from_gguf_metadata` itself always sets it to
`false` and is modelled by the `baseCfg` argument, whose flag is ignored),
upload every tensor, then synthesize missing scales. -/
def loadGguf (baseCfg : ConfigE) (data : List Nat) (g : GgufFileE)
    (maxB : Nat) : LRes × ConfigE :=
  let cfg := loadConfig baseCfg g.tensors
  (match loadLoop data g.tensorDataOff maxB [] g.tensors with
   | .ok st => .ok (createDummyScales st cfg)
   | .err e => .err e
   | .crash => .crash, cfg)

/-- The store of a loader outcome (`[]` for error or panic outcomes);
used to state lookups after a successful load step. -/
def storeOfLRes : LRes → Store
  | .ok st => st
  | _ => []

/-- Whether a loader outcome is a successful store. -/
def lresIsOk : LRes → Bool
  | .ok _ => true
  | _ => false

/-- The full canonical `weight_scale` schema that `create_dummy_scales`
walks: seven names per layer plus `lm_head.weight_scale`, each with its
length in f32 elements. -/
def scaleSchema (cfg : ConfigE) : List (List Nat × Nat) :=
  (List.range cfg.numHiddenLayers).flatMap (dummyEntries cfg) ++
    [(ascii "lm_head.weight_scale", cfg.vocabSize)]

/-- The state of the KV caches and bind-group caches right after
`BitNetModel::build` (`src/nn/model.rs` lines 41-186): every layer's
cache is created with `seq_len = 0` and empty bind-group caches. -/
def buildModelSt (numLayers maxSeqLen : Nat) : ModelSt :=
  { seqLens := List.replicate numLayers 0
    layerBg := List.replicate numLayers []
    lmHeadBg := []
    maxSeqLen := maxSeqLen }

/-- The bytes of `"GGUF"` (little-endian u32 `0x46554747`). -/
def magicBytes : List Nat := [0x47, 0x47, 0x55, 0x46]

/-- The 24-byte container of spec scenario 1: magic, version 3,
`tensor_count = 0`, `meta_count = 0`. -/
def b24 : List Nat :=
  [0x47, 0x47, 0x55, 0x46, 3, 0, 0, 0, 0, 0, 0, 0, 0, 0, 0, 0,
   0, 0, 0, 0, 0, 0, 0, 0]

/-- A 57-byte container whose single metadata entry sets
`general.alignment` (key length 17, value type u32) to 0. -/
def bAlign0 : List Nat :=
  [0x47, 0x47, 0x55, 0x46, 3, 0, 0, 0,
   0, 0, 0, 0, 0, 0, 0, 0,
   1, 0, 0, 0, 0, 0, 0, 0,
   17, 0, 0, 0, 0, 0, 0, 0] ++ ascii "general.alignment" ++
  [4, 0, 0, 0,
   0, 0, 0, 0]

/-! ### Infrastructure for the top-k selection proof

The heap array encodes a binary tree: position `p` has children `2p+1`
and `2p+2`.  `Desc i j` says position `j` lies in the subtree rooted at
`i`; `PairsOK v n h i0` says the min-heap ordering holds for every
parent/child pair whose parent position is at least `i0`. -/

/-- Subtree relation on array-encoded binary-tree positions. -/
inductive Desc : Nat → Nat → Prop where
  | refl (i : Nat) : Desc i i
  | left (i : Nat) {k : Nat} : Desc (2*i+1) k → Desc i k
  | right (i : Nat) {k : Nat} : Desc (2*i+2) k → Desc i k

/-- The heap entry at position `p` (`heap[p]`). -/
def idxAt (h : List Nat) (p : Nat) : Nat := h.getD p 0

/-- The min-heap ordering restricted to pairs whose parent position is
`≥ i0`, over the first `n` positions. -/
def PairsOK {α : Type} [LinearOrder α] (v : Nat → α) (n : Nat)
    (h : List Nat) (i0 : Nat) : Prop :=
  ∀ c, 0 < c → c < n → i0 ≤ (c-1)/2 →
    v (idxAt h ((c-1)/2)) ≤ v (idxAt h c)

/-! ## Theorems -/

/-! ### KV cache growth and disposal (claims C3, C8) -/

theorem resetKvCache_idem (st : ModelSt) :
    resetKvCache (resetKvCache st) = resetKvCache st := by
  simp [resetKvCache]

theorem applyForwards_const (calls : List (List Nat)) :
    ∀ (st0 : ModelSt) (c : Nat), (∀ x ∈ st0.seqLens, x = c) →
      ∀ x ∈ (applyForwards st0 calls).seqLens, x = c + (calls.map List.length).sum := by
  induction calls with
  | nil => intro st0 c hc x hx; simpa using hc x hx
  | cons ids rest ih =>
    intro st0 c hc x hx
    have hstep : ∀ y ∈ (forwardStep st0 ids).seqLens, y = c + ids.length := by
      intro y hy
      simp only [forwardStep, List.mem_map] at hy
      obtain ⟨z, hz, rfl⟩ := hy
      rw [hc z hz]
    have := ih (forwardStep st0 ids) (c + ids.length) hstep x hx
    simpa [Nat.add_assoc] using this

/-- Claim C3 (counterexample): `seq_len` is not kept within `[0, C_max]`.
A model built with `max_seq_len = 1` and given two one-token forwards
reaches `seq_len = 2 > 1`; `BitNetModel::forward` increments `seq_len`
with no clamp against `max_seq_len`. -/
theorem kv_seq_len_unbounded :
    (forwardStep (forwardStep (buildModelSt 1 1) [7]) [8]).seqLens = [2] ∧
    (forwardStep (forwardStep (buildModelSt 1 1) [7]) [8]).maxSeqLen = 1 ∧
    ¬(2 ≤ 1) := by
  refine ⟨by decide, by decide, by decide⟩

/-- Claim C3 (amended): a forward with N tokens increases every layer's
`seq_len` by exactly N (equal layers stay equal), a reset zeroes every
layer, and after any sequence of forwards since a reset every layer's
`seq_len` equals the total number of tokens fed — which stays within
`[0, C_max]` only under the external condition that this total does not
exceed `C_max`; the code itself never clamps. -/
theorem kv_growth_spec (st : ModelSt) (ids : List Nat) :
    (forwardStep st ids).seqLens = st.seqLens.map (· + ids.length) ∧
    (forwardStep st ids).maxSeqLen = st.maxSeqLen ∧
    (∀ c : Nat, (∀ x ∈ st.seqLens, x = c) →
      ∀ x ∈ (forwardStep st ids).seqLens, x = c + ids.length) ∧
    (∀ x ∈ (resetKvCache st).seqLens, x = 0) ∧
    (∀ calls : List (List Nat),
      ∀ x ∈ (applyForwards (resetKvCache st) calls).seqLens,
        x = (calls.map List.length).sum) ∧
    (∀ calls : List (List Nat), (calls.map List.length).sum ≤ st.maxSeqLen →
      ∀ x ∈ (applyForwards (resetKvCache st) calls).seqLens, x ≤ st.maxSeqLen) := by
  have hreset : ∀ x ∈ (resetKvCache st).seqLens, x = 0 := by
    intro x hx
    simp only [resetKvCache, List.mem_map] at hx
    obtain ⟨z, _, rfl⟩ := hx
    rfl
  have htotal : ∀ calls : List (List Nat),
      ∀ x ∈ (applyForwards (resetKvCache st) calls).seqLens,
        x = (calls.map List.length).sum := by
    intro calls x hx
    simpa using applyForwards_const calls (resetKvCache st) 0 hreset x hx
  refine ⟨rfl, rfl, ?_, hreset, htotal, ?_⟩
  · intro c hc x hx
    simp only [forwardStep, List.mem_map] at hx
    obtain ⟨z, hz, rfl⟩ := hx
    rw [hc z hz]
  · intro calls hle x hx
    rw [htotal calls x hx]
    exact hle

theorem kv_growth_spec_witness :
    (forwardStep (buildModelSt 2 8) [1, 2, 3]).seqLens = [3, 3] := by
  have h := kv_growth_spec (buildModelSt 2 8) [1, 2, 3]
  rw [h.1]
  decide

/-- Claim C8 (counterexample): after `dispose()` a forward call does not
fail with `NotLoaded` — it executes normally (the KV length advances),
and a whole `generate` call after `dispose` also runs normally.
`BitNet::dispose` only calls `reset_kv_cache`, and the crate never
constructs `BitNetError::NotLoaded`. -/
theorem dispose_then_forward_ok :
    sessionForward (dispose (buildModelSt 1 4096)) [7] =
      .ok { seqLens := [1], layerBg := [[]], lmHeadBg := [], maxSeqLen := 4096 } ∧
    sessionForward (dispose (buildModelSt 1 4096)) [7] ≠ .error BErr.notLoaded ∧
    (sessionGenerate (fun _ => none) (fun _ => none) (fun _ => 0) (fun _ => 0)
        ⟨0, 1, 0, 1, 64⟩ ⟨5, none, none⟩ (dispose (buildModelSt 1 4096))
        [5, 6]).1.seqLens = [2] := by
  refine ⟨rfl, by simp [sessionForward], by decide⟩

/-- Claim C8 (amended): `dispose` resets every layer's KV `seq_len` to 0
and clears the transient bind-group caches, and it is idempotent; but
subsequent calls do not fail: a forward after `dispose` succeeds (it is
never `NotLoaded`, which nothing in the crate constructs), and a
`generate` after `dispose` behaves exactly as without the `dispose`. -/
theorem dispose_spec (st : ModelSt) (ids : List Nat) :
    dispose (dispose st) = dispose st ∧
    (dispose st).seqLens = List.replicate st.seqLens.length 0 ∧
    (dispose st).layerBg = List.replicate st.layerBg.length ([] : List Nat) ∧
    (dispose st).lmHeadBg = [] ∧
    sessionForward (dispose st) ids = .ok (forwardStep (dispose st) ids) ∧
    (∀ readL decodeOne e rands opts stops,
      sessionGenerate readL decodeOne e rands opts stops (dispose st) ids =
        sessionGenerate readL decodeOne e rands opts stops st ids) := by
  refine ⟨resetKvCache_idem st, ?_, ?_, rfl, rfl, ?_⟩
  · simp [dispose, resetKvCache, List.map_const']
  · simp [dispose, resetKvCache, List.map_const']
  · intro readL decodeOne e rands opts stops
    simp [sessionGenerate, dispose, resetKvCache_idem]

theorem dispose_spec_witness :
    dispose (dispose (buildModelSt 2 4096)) = dispose (buildModelSt 2 4096) :=
  (dispose_spec (buildModelSt 2 4096) []).1

/-! ### Generation loop (claims C2, C6) -/

theorem genLoop_spec (readL : Nat → Option (List F))
    (decodeOne : Nat → Option String) (e : ℚ → ℚ) (rands : Nat → ℚ)
    (opts : GenOpts) (stops : GenStops) :
    ∀ (rem t : Nat) (recent : List Nat) (tr : GenTrace),
      ∃ newIds : List Nat,
        (genLoop readL decodeOne e rands opts stops rem t recent tr).accepted
            = tr.accepted ++ newIds ∧
        (genLoop readL decodeOne e rands opts stops rem t recent tr).emitted
            = tr.emitted ++ newIds.filterMap decodeOne ∧
        (genLoop readL decodeOne e rands opts stops rem t recent tr).forwards
            = tr.forwards ++ newIds.map (fun id => [id]) ∧
        newIds.length ≤ rem ∧
        ∀ id ∈ newIds,
          ¬(id = stops.eos ∨ stops.eot = some id ∨ stops.imEnd = some id) := by
  intro rem
  induction rem with
  | zero =>
    intro t recent tr
    exact ⟨[], by simp [genLoop], by simp [genLoop], by simp [genLoop],
      Nat.le_refl 0, by simp⟩
  | succ rem ih =>
    intro t recent tr
    cases hr : readL t with
    | none =>
      exact ⟨[], by simp [genLoop, hr], by simp [genLoop, hr],
        by simp [genLoop, hr], Nat.zero_le _, by simp⟩
    | some L =>
      by_cases hstop :
          sampleToken e (rands t) L opts.temperature opts.topK
              opts.repeatPenalty
              (if 0 < opts.repeatLastN then
                recent.drop (recent.length - opts.repeatLastN) else recent)
            = stops.eos ∨
          stops.eot = some (sampleToken e (rands t) L opts.temperature
            opts.topK opts.repeatPenalty
            (if 0 < opts.repeatLastN then
              recent.drop (recent.length - opts.repeatLastN) else recent)) ∨
          stops.imEnd = some (sampleToken e (rands t) L opts.temperature
            opts.topK opts.repeatPenalty
            (if 0 < opts.repeatLastN then
              recent.drop (recent.length - opts.repeatLastN) else recent))
      · exact ⟨[], by simp [genLoop, hr, hstop], by simp [genLoop, hr, hstop],
          by simp [genLoop, hr, hstop], Nat.zero_le _, by simp⟩
      · set next := sampleToken e (rands t) L opts.temperature opts.topK
          opts.repeatPenalty
          (if 0 < opts.repeatLastN then
            recent.drop (recent.length - opts.repeatLastN) else recent) with hnext
        obtain ⟨ids, h1, h2, h3, h4, h5⟩ := ih (t+1) (recent ++ [next])
          { emitted := tr.emitted ++ (match decodeOne next with
              | some s => [s]
              | none => [])
            accepted := tr.accepted ++ [next]
            forwards := tr.forwards ++ [[next]] }
        refine ⟨next :: ids, ?_, ?_, ?_, ?_, ?_⟩
        · rw [show (genLoop readL decodeOne e rands opts stops (rem+1) t recent tr)
              = genLoop readL decodeOne e rands opts stops rem (t+1)
                (recent ++ [next])
                { emitted := tr.emitted ++ (match decodeOne next with
                    | some s => [s]
                    | none => [])
                  accepted := tr.accepted ++ [next]
                  forwards := tr.forwards ++ [[next]] } by
            simp [genLoop, hr, hstop, hnext]]
          rw [h1]
          simp
        · rw [show (genLoop readL decodeOne e rands opts stops (rem+1) t recent tr)
              = genLoop readL decodeOne e rands opts stops rem (t+1)
                (recent ++ [next])
                { emitted := tr.emitted ++ (match decodeOne next with
                    | some s => [s]
                    | none => [])
                  accepted := tr.accepted ++ [next]
                  forwards := tr.forwards ++ [[next]] } by
            simp [genLoop, hr, hstop, hnext]]
          rw [h2]
          cases hd : decodeOne next <;> simp [List.filterMap_cons, hd]
        · rw [show (genLoop readL decodeOne e rands opts stops (rem+1) t recent tr)
              = genLoop readL decodeOne e rands opts stops rem (t+1)
                (recent ++ [next])
                { emitted := tr.emitted ++ (match decodeOne next with
                    | some s => [s]
                    | none => [])
                  accepted := tr.accepted ++ [next]
                  forwards := tr.forwards ++ [[next]] } by
            simp [genLoop, hr, hstop, hnext]]
          rw [h3]
          simp
        · simpa using Nat.succ_le_succ h4
        · intro id hid
          rcases List.mem_cons.mp hid with h | h
          · subst h; exact hstop
          · exact h5 id h

/-- Claim C2: for every prompt and every `GenerateOptions`, the stream
emits at most `max_tokens` strings, every accepted (sampled, non-stop) id
is distinct from all active stop ids — a sampled stop id terminates the
stream before any corresponding emission — and the emitted strings are
exactly the successful decodes of the accepted ids. -/
theorem generate_stop_cap (readL : Nat → Option (List F))
    (decodeOne : Nat → Option String) (e : ℚ → ℚ) (rands : Nat → ℚ)
    (opts : GenOpts) (stops : GenStops) (inputIds : List Nat) :
    (generateFromIds readL decodeOne e rands opts stops inputIds).emitted.length
        ≤ opts.maxTokens ∧
    (∀ id ∈ (generateFromIds readL decodeOne e rands opts stops inputIds).accepted,
      id ≠ stops.eos ∧ stops.eot ≠ some id ∧ stops.imEnd ≠ some id) ∧
    (generateFromIds readL decodeOne e rands opts stops inputIds).emitted
      = (generateFromIds readL decodeOne e rands opts stops
          inputIds).accepted.filterMap decodeOne := by
  obtain ⟨ids, h1, h2, h3, h4, h5⟩ := genLoop_spec readL decodeOne e rands opts
    stops opts.maxTokens 0 [] { emitted := [], accepted := [], forwards := [inputIds] }
  unfold generateFromIds
  rw [h1, h2]
  simp only [List.nil_append]
  refine ⟨?_, ?_, by trivial⟩
  · exact le_trans (List.length_filterMap_le decodeOne ids) h4
  · intro id hid
    have := h5 id hid
    exact ⟨fun h => this (Or.inl h), fun h => this (Or.inr (Or.inl h)),
      fun h => this (Or.inr (Or.inr h))⟩

/-- Concrete evaluation of one decode step: with penalty 1, temperature
1, `top_k` 0 and a single logit, `sample_token` picks index 0 when the
RNG draw is 0. -/
theorem sampleToken_single :
    sampleToken (fun _ => 1) 0 [(0 : F)] 1 0 1 [] = 0 := by
  have hp : sampleProbs (fun _ => 1) [(0 : F)] 1 0 1 [] = [1] := by
    simp [sampleProbs, topkStep, tempPhase, penaltyPhase, fexpSub]
  have hr : sampleR (fun _ => 1) 0 [(0 : F)] 1 0 1 [] = 0 := by
    simp [sampleR]
  simp only [sampleToken]
  rw [hp, hr]
  norm_num [selectGo]

/-- Claim C6 (counterexample): an accepted id whose decode is `Ok("")` is
emitted as the empty string, not skipped: the guard in `src/lib.rs` line
181 is `if let Ok(token_str) = ...`, which accepts empty strings. -/
theorem empty_string_emitted :
    (generateFromIds (fun _ => some [(0 : F)]) (fun _ => some "")
      (fun _ => 1) (fun _ => 0) ⟨1, 1, 0, 1, 64⟩ ⟨5, none, none⟩ [9]).emitted
      = [""] ∧
    ([""] : List String) ≠ [] := by
  constructor
  · simp [generateFromIds, genLoop, sampleToken_single]
  · decide

/-- Claim C6 (amended): exactly one string is emitted per accepted id
whose decode succeeds; a decode error (`Err`) is silently skipped while
the id is still counted toward `max_tokens` and fed to the next forward
call — an empty decoded string, however, is emitted as an empty string,
not skipped. -/
theorem emission_spec (readL : Nat → Option (List F))
    (decodeOne : Nat → Option String) (e : ℚ → ℚ) (rands : Nat → ℚ)
    (opts : GenOpts) (stops : GenStops) (inputIds : List Nat) :
    (generateFromIds readL decodeOne e rands opts stops inputIds).emitted
      = (generateFromIds readL decodeOne e rands opts stops
          inputIds).accepted.filterMap decodeOne ∧
    (generateFromIds readL decodeOne e rands opts stops inputIds).forwards
      = inputIds :: (generateFromIds readL decodeOne e rands opts stops
          inputIds).accepted.map (fun id => [id]) ∧
    (generateFromIds readL decodeOne e rands opts stops inputIds).accepted.length
      ≤ opts.maxTokens := by
  obtain ⟨ids, h1, h2, h3, h4, h5⟩ := genLoop_spec readL decodeOne e rands opts
    stops opts.maxTokens 0 [] { emitted := [], accepted := [], forwards := [inputIds] }
  unfold generateFromIds
  rw [h1, h2, h3]
  simp only [List.nil_append]
  refine ⟨by trivial, by simp, by simpa using h4⟩

/-! ### Sampler totality (claim C9) -/

theorem applyPenaltyOne_length (pen : ℚ) (l : List F) (tid : Nat) :
    (applyPenaltyOne pen l tid).length = l.length := by
  unfold applyPenaltyOne
  split <;> simp

theorem penaltyPhase_length (pen : ℚ) (recent : List Nat) (l : List F) :
    (penaltyPhase pen recent l).length = l.length := by
  unfold penaltyPhase
  split
  · clear * -
    induction recent generalizing l with
    | nil => rfl
    | cons td rest ih => simpa [applyPenaltyOne_length] using ih (applyPenaltyOne pen l td)
  · rfl

theorem tempPhase_length (temp : ℚ) (l : List F) :
    (tempPhase temp l).length = l.length := by
  unfold tempPhase
  split <;> simp

theorem topkStep_length (l : List F) (k : Nat) :
    (topkStep l k).length = l.length := by
  unfold topkStep
  split <;> simp

theorem sampleProbs_length (e : ℚ → ℚ) (l : List F) (temp : ℚ) (k : Nat)
    (pen : ℚ) (recent : List Nat) :
    (sampleProbs e l temp k pen recent).length = l.length := by
  unfold sampleProbs
  simp [topkStep_length, tempPhase_length, penaltyPhase_length]

theorem selectGo_some_lt :
    ∀ (ps : List ℚ) (c r : ℚ) (i j : Nat),
      selectGo ps c r i = some j → j < i + ps.length := by
  intro ps
  induction ps with
  | nil => intro c r i j h; cases h
  | cons p rest ih =>
    intro c r i j h
    unfold selectGo at h
    split at h
    · cases h
      simp
    · have := ih (c + p) r (i+1) j h
      simpa [Nat.add_assoc, Nat.add_comm 1] using this

theorem selectGo_none_of :
    ∀ (ps : List ℚ) (c r : ℚ) (i : Nat),
      (∀ m, m < ps.length → c + ((ps.take (m+1)).sum) < r) →
      selectGo ps c r i = none := by
  intro ps
  induction ps with
  | nil => intro c r i _; rfl
  | cons p rest ih =>
    intro c r i hlt
    have h0 : c + p < r := by simpa using hlt 0 (by simp)
    unfold selectGo
    rw [if_neg (by exact not_le.mpr h0)]
    apply ih
    intro m hm
    have := hlt (m+1) (by simpa using Nat.succ_lt_succ hm)
    simpa [add_assoc] using this

/-- Claim C9: `sample_token` is total and in-range: for every non-empty
logits vector, every temperature, `top_k`, penalty, and every
recent-token list (entries `≥ V` included — the penalty loop skips them
by its bounds check), the returned id is `< V`; and if the cumulative
probability sum never reaches the sampling target `r`, the fall-through
returns the last index `V - 1`. -/
theorem sample_token_total (e : ℚ → ℚ) (rand : ℚ) (l : List F) (temp : ℚ)
    (k : Nat) (pen : ℚ) (recent : List Nat) (hV : 0 < l.length) :
    sampleToken e rand l temp k pen recent < l.length ∧
    ((∀ m, m < (sampleProbs e l temp k pen recent).length →
        ((sampleProbs e l temp k pen recent).take (m+1)).sum
          < sampleR e rand l temp k pen recent) →
      sampleToken e rand l temp k pen recent = l.length - 1) := by
  constructor
  · cases h : selectGo (sampleProbs e l temp k pen recent) 0
        (sampleR e rand l temp k pen recent) 0 with
    | none =>
      simp only [sampleToken, h]
      exact Nat.sub_lt hV Nat.one_pos
    | some j =>
      have hj := selectGo_some_lt _ _ _ _ _ h
      simp only [sampleToken, h]
      simpa [sampleProbs_length] using hj
  · intro hdeg
    have hnone : selectGo (sampleProbs e l temp k pen recent) 0
        (sampleR e rand l temp k pen recent) 0 = none := by
      apply selectGo_none_of
      intro m hm
      simpa using hdeg m hm
    simp [sampleToken, hnone]

theorem sample_token_total_witness :
    0 < [((0:ℚ) : F)].length ∧
    sampleToken (fun _ => 1) 2 [((0:ℚ) : F)] 1 0 1 [] = 0 := by
  refine ⟨by decide, ?_⟩
  have h := sample_token_total (fun _ => 1) 2 [((0:ℚ) : F)] 1 0 1 [] (by decide)
  have hp : sampleProbs (fun _ => 1) [((0:ℚ) : F)] 1 0 1 [] = [1] := by
    simp [sampleProbs, topkStep, tempPhase, penaltyPhase, fexpSub]
  have hr : sampleR (fun _ => 1) 2 [((0:ℚ) : F)] 1 0 1 [] = 2 := by
    unfold sampleR
    rw [hp]
    norm_num [List.foldl]
  have hdeg : ∀ m, m < (sampleProbs (fun _ => 1) [((0:ℚ) : F)] 1 0 1 []).length →
      ((sampleProbs (fun _ => 1) [((0:ℚ) : F)] 1 0 1 []).take (m+1)).sum
        < sampleR (fun _ => 1) 2 [((0:ℚ) : F)] 1 0 1 [] := by
    intro m hm
    rw [hp] at hm ⊢
    rw [hr]
    have : m = 0 := by
      simpa using Nat.lt_one_iff.mp (by simpa using hm)
    subst this
    norm_num
  simpa using h.2 hdeg

/-! ### Parser plumbing (claims C4, C10) -/

theorem pmBind_def {α β : Type} (p : PM α) (f : α → PM β) (d : List Nat)
    (off : Nat) :
    (p >>= f) d off = match p d off with
      | .ok a o2 => f a d o2
      | .err e => .err e
      | .crash => .crash := rfl

theorem pmPure_def {α : Type} (a : α) (d : List Nat) (off : Nat) :
    (pure a : PM α) d off = .ok a off := rfl

theorem pmMap_def {α β : Type} (g : α → β) (p : PM α) (d : List Nat)
    (off : Nat) :
    (g <$> p) d off = match p d off with
      | .ok a o2 => .ok (g a) o2
      | .err e => .err e
      | .crash => .crash := by
  show (p >>= fun a => pure (g a)) d off = _
  rw [pmBind_def]
  cases p d off <;> rfl

theorem ensure_ok {d : List Nat} {off n : Nat} (h : off + n ≤ d.length) :
    ensure n d off = .ok () off := by
  unfold ensure
  rw [if_neg (by omega)]

theorem ensure_err {d : List Nat} {off n : Nat} (h : d.length < off + n) :
    ensure n d off = .err (.ggufParseEof off n d.length) := by
  unfold ensure
  rw [if_pos h]

theorem readBytes_ok {d : List Nat} {off n : Nat} (h : off + n ≤ d.length) :
    readBytes n d off = .ok ((d.drop off).take n) (off + n) := by
  unfold readBytes takeRaw
  rw [pmBind_def, ensure_ok h]
  exact if_pos h

theorem readBytes_err {d : List Nat} {off n : Nat} (h : d.length < off + n) :
    readBytes n d off = .err (.ggufParseEof off n d.length) := by
  unfold readBytes
  rw [pmBind_def, ensure_err h]

theorem readU32_ok {d : List Nat} {off : Nat} (h : off + 4 ≤ d.length) :
    readU32 d off = .ok (leVal ((d.drop off).take 4)) (off + 4) := by
  unfold readU32
  rw [pmMap_def, readBytes_ok h]

theorem readU32_err {d : List Nat} {off : Nat} (h : d.length < off + 4) :
    readU32 d off = .err (.ggufParseEof off 4 d.length) := by
  unfold readU32
  rw [pmMap_def, readBytes_err h]

theorem pmBind_ok {α β : Type} {p : PM α} {f : α → PM β} {d : List Nat}
    {off : Nat} {b : β} {o3 : Nat} (h : (p >>= f) d off = .ok b o3) :
    ∃ a o2, p d off = .ok a o2 ∧ f a d o2 = .ok b o3 := by
  rw [pmBind_def] at h
  cases hp : p d off with
  | ok a o2 => rw [hp] at h; exact ⟨a, o2, rfl, h⟩
  | err e => rw [hp] at h; cases h
  | crash => rw [hp] at h; cases h

theorem benign_bind {α β : Type} {p : PM α} {f : α → PM β} {d : List Nat}
    {off : Nat}
    (hp : ∀ e, p d off = .err e → errBenign e = true)
    (hf : ∀ a o2 e, f a d o2 = .err e → errBenign e = true) :
    ∀ e, (p >>= f) d off = .err e → errBenign e = true := by
  intro e h
  rw [pmBind_def] at h
  cases hpd : p d off with
  | ok a o2 => rw [hpd] at h; exact hf a o2 e h
  | err e2 =>
    rw [hpd] at h
    cases h
    exact hp _ hpd
  | crash => rw [hpd] at h; cases h

theorem benign_pure {α : Type} (a : α) (d : List Nat) (off : Nat) :
    ∀ e, (pure a : PM α) d off = .err e → errBenign e = true := by
  intro e h
  rw [pmPure_def] at h
  cases h

theorem benign_ensure (n : Nat) (d : List Nat) (off : Nat) :
    ∀ e, ensure n d off = .err e → errBenign e = true := by
  intro e h
  unfold ensure at h
  split at h
  · cases h; rfl
  · cases h

theorem benign_takeRaw (n : Nat) (d : List Nat) (off : Nat) :
    ∀ e, takeRaw n d off = .err e → errBenign e = true := by
  intro e h
  unfold takeRaw at h
  split at h <;> cases h

theorem benign_readBytes (n : Nat) (d : List Nat) (off : Nat) :
    ∀ e, readBytes n d off = .err e → errBenign e = true := by
  unfold readBytes
  exact benign_bind (benign_ensure n d off) (fun _ o2 => benign_takeRaw n d o2)

theorem benign_map {α β : Type} {p : PM α} (g : α → β) {d : List Nat}
    {off : Nat} (hp : ∀ e, p d off = .err e → errBenign e = true) :
    ∀ e, (g <$> p) d off = .err e → errBenign e = true := by
  intro e h
  rw [pmMap_def] at h
  cases hpd : p d off with
  | ok a o2 => rw [hpd] at h; cases h
  | err e2 =>
    rw [hpd] at h
    cases h
    exact hp _ hpd
  | crash => rw [hpd] at h; cases h

theorem benign_readU8 (d : List Nat) (off : Nat) :
    ∀ e, readU8 d off = .err e → errBenign e = true :=
  benign_map _ (benign_readBytes 1 d off)

theorem benign_readU16 (d : List Nat) (off : Nat) :
    ∀ e, readU16 d off = .err e → errBenign e = true :=
  benign_map _ (benign_readBytes 2 d off)

theorem benign_readU32 (d : List Nat) (off : Nat) :
    ∀ e, readU32 d off = .err e → errBenign e = true :=
  benign_map _ (benign_readBytes 4 d off)

theorem benign_readU64 (d : List Nat) (off : Nat) :
    ∀ e, readU64 d off = .err e → errBenign e = true :=
  benign_map _ (benign_readBytes 8 d off)

theorem benign_readI8 (d : List Nat) (off : Nat) :
    ∀ e, readI8 d off = .err e → errBenign e = true :=
  benign_map _ (benign_readU8 d off)

theorem benign_readI16 (d : List Nat) (off : Nat) :
    ∀ e, readI16 d off = .err e → errBenign e = true :=
  benign_map _ (benign_readU16 d off)

theorem benign_readI32 (d : List Nat) (off : Nat) :
    ∀ e, readI32 d off = .err e → errBenign e = true :=
  benign_map _ (benign_readU32 d off)

theorem benign_readI64 (d : List Nat) (off : Nat) :
    ∀ e, readI64 d off = .err e → errBenign e = true :=
  benign_map _ (benign_readU64 d off)

theorem benign_readString (d : List Nat) (off : Nat) :
    ∀ e, readString d off = .err e → errBenign e = true := by
  unfold readString
  refine benign_bind (benign_readU64 d off) ?_
  intro len o2
  refine benign_bind (benign_ensure len d o2) ?_
  intro _ o3
  refine benign_bind (benign_takeRaw len d o3) ?_
  intro bs o4 e h
  split at h
  · rw [pmPure_def] at h; cases h
  · cases h; rfl

theorem benign_foldlM {α β : Type} {f : β → α → PM β}
    (hf : ∀ b a d off e, f b a d off = .err e → errBenign e = true) :
    ∀ (l : List α) (init : β) (d : List Nat) (off : Nat) (e : BErr),
      (l.foldlM f init) d off = .err e → errBenign e = true := by
  intro l
  induction l with
  | nil =>
    intro init d off e h
    rw [List.foldlM_nil, pmPure_def] at h
    cases h
  | cons a as ih =>
    intro init d off e h
    rw [List.foldlM_cons] at h
    exact benign_bind (fun e2 he => hf init a d off e2 he)
      (fun b o2 e2 he => ih b d o2 e2 he) e h

theorem benign_readValueOfType :
    ∀ (fuel ty : Nat) (d : List Nat) (off : Nat) (e : BErr),
      readValueOfType fuel ty d off = .err e → errBenign e = true := by
  intro fuel
  induction fuel with
  | zero =>
    intro ty d off e h
    cases h
  | succ fuel ih =>
    intro ty d off e h
    unfold readValueOfType at h
    by_cases h0 : ty = 0
    · rw [if_pos h0] at h
      exact benign_map _ (benign_readU8 d off) e h
    rw [if_neg h0] at h
    by_cases h1 : ty = 1
    · rw [if_pos h1] at h
      exact benign_map _ (benign_readI8 d off) e h
    rw [if_neg h1] at h
    by_cases h2 : ty = 2
    · rw [if_pos h2] at h
      exact benign_map _ (benign_readU16 d off) e h
    rw [if_neg h2] at h
    by_cases h3 : ty = 3
    · rw [if_pos h3] at h
      exact benign_map _ (benign_readI16 d off) e h
    rw [if_neg h3] at h
    by_cases h4 : ty = 4
    · rw [if_pos h4] at h
      exact benign_map _ (benign_readU32 d off) e h
    rw [if_neg h4] at h
    by_cases h5 : ty = 5
    · rw [if_pos h5] at h
      exact benign_map _ (benign_readI32 d off) e h
    rw [if_neg h5] at h
    by_cases h6 : ty = 6
    · rw [if_pos h6] at h
      exact benign_map _ (benign_readU32 d off) e h
    rw [if_neg h6] at h
    by_cases h7 : ty = 7
    · rw [if_pos h7] at h
      exact benign_map _ (benign_readU8 d off) e h
    rw [if_neg h7] at h
    by_cases h8 : ty = 8
    · rw [if_pos h8] at h
      exact benign_map _ (benign_readString d off) e h
    rw [if_neg h8] at h
    by_cases h9 : ty = 9
    · rw [if_pos h9] at h
      refine benign_bind (benign_readU32 d off) ?_ e h
      intro elemTy o2
      refine benign_bind (benign_readU64 d o2) ?_
      intro len o3
      refine benign_bind ?_ (fun vs o4 => benign_pure _ d o4)
      refine benign_foldlM ?_ (List.range len) [] d o3
      intro acc _ d2 off2
      exact benign_bind (fun e2 he => ih elemTy d2 off2 e2 he)
        (fun v o5 => benign_pure _ d2 o5)
    rw [if_neg h9] at h
    by_cases h10 : ty = 10
    · rw [if_pos h10] at h
      exact benign_map _ (benign_readU64 d off) e h
    rw [if_neg h10] at h
    by_cases h11 : ty = 11
    · rw [if_pos h11] at h
      exact benign_map _ (benign_readI64 d off) e h
    rw [if_neg h11] at h
    by_cases h12 : ty = 12
    · rw [if_pos h12] at h
      exact benign_map _ (benign_readU64 d off) e h
    rw [if_neg h12] at h
    cases h
    rfl

theorem benign_parseMeta (fuel metaCount : Nat) (d : List Nat) (off : Nat) :
    ∀ e, parseMeta fuel metaCount d off = .err e → errBenign e = true := by
  unfold parseMeta
  refine fun e h => benign_foldlM ?_ (List.range metaCount) [] d off e h
  intro md _ d2 off2
  refine benign_bind (benign_readString d2 off2) ?_
  intro key o2
  refine benign_bind (benign_readU32 d2 o2) ?_
  intro vty o3
  exact benign_bind (fun e2 he => benign_readValueOfType fuel vty d2 o3 e2 he)
    (fun v o4 => benign_pure _ d2 o4)

theorem benign_parseShape (nd : Nat) (d : List Nat) (off : Nat) :
    ∀ e, parseShape nd d off = .err e → errBenign e = true := by
  unfold parseShape
  refine fun e h => benign_foldlM ?_ (List.range nd) [] d off e h
  intro sh _ d2 off2
  exact benign_bind (benign_readU64 d2 off2) (fun x o2 => benign_pure _ d2 o2)

theorem benign_parseTensorInfos (tensorCount : Nat) (d : List Nat) (off : Nat) :
    ∀ e, parseTensorInfos tensorCount d off = .err e → errBenign e = true := by
  unfold parseTensorInfos
  refine fun e h => benign_foldlM ?_ (List.range tensorCount) [] d off e h
  intro ts _ d2 off2
  refine benign_bind (benign_readString d2 off2) ?_
  intro name o2
  refine benign_bind (benign_readU32 d2 o2) ?_
  intro nd o3
  refine benign_bind (benign_parseShape nd d2 o3) ?_
  intro shape o4
  refine benign_bind (benign_readU32 d2 o4) ?_
  intro tt o5
  exact benign_bind (benign_readU64 d2 o5) (fun toff o6 => benign_pure _ d2 o6)

theorem benign_parseFinish (v tc : Nat) (md : List (List Nat × GVal))
    (ts : List TInfo) (d : List Nat) (off : Nat) :
    ∀ e, parseFinish v tc md ts d off = .err e → errBenign e = true := by
  intro e h
  unfold parseFinish at h
  rw [pmBind_def] at h
  simp only [curOff] at h
  split at h
  · cases h
  · rw [pmPure_def] at h; cases h

theorem benign_parseBody (fuel v : Nat) (d : List Nat) (off : Nat) :
    ∀ e, parseBody fuel v d off = .err e → errBenign e = true := by
  unfold parseBody
  refine benign_bind (benign_readU64 d off) ?_
  intro tc o2
  refine benign_bind (benign_readU64 d o2) ?_
  intro mc o3
  refine benign_bind (benign_parseMeta fuel mc d o3) ?_
  intro md o4
  refine benign_bind (benign_parseTensorInfos tc d o4) ?_
  intro ts o5
  exact benign_parseFinish v tc md ts d o5

theorem benign_discriminators {r : PRes GgufFileE}
    (h : ∀ e, r = .err e → errBenign e = true) :
    presIsInvalidMagic r = false ∧ presIsUnsupportedVersion r = false := by
  cases r with
  | ok f off => exact ⟨rfl, rfl⟩
  | crash => exact ⟨rfl, rfl⟩
  | err e =>
    have := h e rfl
    cases e <;> simp_all [presIsInvalidMagic, presIsUnsupportedVersion, errBenign]

theorem leVal_cons (b : Nat) (bs : List Nat) :
    leVal (b :: bs) = b + 256 * leVal bs := rfl

theorem leVal_inj :
    ∀ (bs cs : List Nat), bs.length = cs.length → (∀ b ∈ bs, b < 256) →
      (∀ b ∈ cs, b < 256) → leVal bs = leVal cs → bs = cs := by
  intro bs
  induction bs with
  | nil =>
    intro cs hlen _ _ _
    cases cs with
    | nil => rfl
    | cons c cs => cases hlen
  | cons b bs ih =>
    intro cs hlen hb hc hval
    cases cs with
    | nil => cases hlen
    | cons c cs =>
      rw [leVal_cons, leVal_cons] at hval
      have hb0 : b < 256 := hb b (List.mem_cons_self b bs)
      have hc0 : c < 256 := hc c (List.mem_cons_self c cs)
      have hbc : b = c ∧ leVal bs = leVal cs := by omega
      have := ih cs (by simpa using hlen) (fun x hx => hb x (List.mem_cons_of_mem _ hx))
        (fun x hx => hc x (List.mem_cons_of_mem _ hx)) hbc.2
      rw [hbc.1, this]

theorem parseFinish_ok {v tc : Nat} {md : List (List Nat × GVal)}
    {ts : List TInfo} {d : List Nat} {off0 : Nat} {f : GgufFileE} {off : Nat}
    (h : parseFinish v tc md ts d off0 = .ok f off) :
    off = off0 ∧ f.metadata = md ∧ 0 < metaAlignment md ∧
    f.tensorDataOff =
      ((off0 + metaAlignment md - 1) / metaAlignment md) * metaAlignment md := by
  unfold parseFinish at h
  rw [pmBind_def] at h
  simp only [curOff] at h
  split at h
  · cases h
  · rw [pmPure_def] at h
    cases h
    refine ⟨rfl, rfl, by omega, rfl⟩

/-- Claim C10 (code bug): on a container whose metadata sets
`general.alignment = 0` (magic and version valid), `GgufParser::parse`
reaches `self.offset.div_ceil(alignment)` with `alignment = 0` and
panics with a division by zero instead of returning `Ok` or a
`BitNetError`. -/
theorem parse_alignment_zero_crash : parseGguf bAlign0 = PRes.crash := by rfl

/-- Claim C4 (counterexample): on the empty input the parser fails with
the EOF `GgufParse` error, not with `InvalidMagic`, although the first 4
bytes are not the little-endian magic (they do not exist); the claim's
"fails with InvalidMagic exactly when the first 4 bytes are not
0x46554747" is false for inputs shorter than 4 bytes. -/
theorem parse_short_input_not_invalid_magic :
    parseGguf [] = PRes.err (BErr.ggufParseEof 0 4 0) ∧
    presIsInvalidMagic (parseGguf []) = false ∧
    List.take 4 ([] : List Nat) ≠ magicBytes := by
  exact ⟨rfl, rfl, by decide⟩

theorem leVal_magicBytes : leVal magicBytes = 0x46554747 := by decide

theorem parse_ok_dataOffset {d : List Nat} :
    ∀ (f : GgufFileE) (off : Nat), parseGguf d = .ok f off →
      0 < metaAlignment f.metadata ∧
      f.tensorDataOff =
        ((off + metaAlignment f.metadata - 1) / metaAlignment f.metadata)
          * metaAlignment f.metadata ∧
      f.tensorDataOff % metaAlignment f.metadata = 0 ∧
      off ≤ f.tensorDataOff := by
  intro f off h
  unfold parseGguf parseM at h
  obtain ⟨magic, o1, hmagic, h⟩ := pmBind_ok h
  obtain ⟨u1, o2, hif1, h⟩ := pmBind_ok h
  obtain ⟨version, o3, hver, h⟩ := pmBind_ok h
  obtain ⟨u2, o4, hif2, h⟩ := pmBind_ok h
  unfold parseBody at h
  obtain ⟨tc, o5, htc, h⟩ := pmBind_ok h
  obtain ⟨mc, o6, hmc, h⟩ := pmBind_ok h
  obtain ⟨md, o7, hmd, h⟩ := pmBind_ok h
  obtain ⟨ts, o8, hts, h⟩ := pmBind_ok h
  obtain ⟨hoff, hmdeq, hapos, hform⟩ := parseFinish_ok h
  subst hoff
  rw [hmdeq]
  refine ⟨hapos, hform, ?_, ?_⟩
  · rw [hform]
    exact Nat.mul_mod_left _ _
  · rw [hform]
    have hdm := Nat.div_add_mod (off + metaAlignment md - 1) (metaAlignment md)
    have hmlt := Nat.mod_lt (off + metaAlignment md - 1) hapos
    rw [Nat.mul_comm]
    omega

/-- Claim C4 (amended): for byte inputs, the parser fails with
`InvalidMagic` exactly when at least 4 bytes are present and the first 4
are not little-endian `0x46554747` (shorter inputs fail with a
`GgufParse` EOF error instead); it fails with `UnsupportedVersion`
exactly when at least 8 bytes are present, the magic matches, and the
following u32 is not 2 or 3; on success `tensor_data_offset` is the end
of the tensor directory rounded up to the next multiple of the (nonzero)
`general.alignment` (default 32); and the 24-byte header of spec
scenario 1 parses to `tensor_data_offset = 32`. -/
theorem parse_header_spec (d : List Nat) (hbytes : ∀ b ∈ d, b < 256) :
    (presIsInvalidMagic (parseGguf d) = true ↔
      4 ≤ d.length ∧ d.take 4 ≠ magicBytes) ∧
    (presIsUnsupportedVersion (parseGguf d) = true ↔
      8 ≤ d.length ∧ d.take 4 = magicBytes ∧
      ¬(2 ≤ leVal ((d.drop 4).take 4) ∧ leVal ((d.drop 4).take 4) ≤ 3)) ∧
    (∀ (f : GgufFileE) (off : Nat), parseGguf d = .ok f off →
      0 < metaAlignment f.metadata ∧
      f.tensorDataOff =
        ((off + metaAlignment f.metadata - 1) / metaAlignment f.metadata)
          * metaAlignment f.metadata ∧
      f.tensorDataOff % metaAlignment f.metadata = 0 ∧
      off ≤ f.tensorDataOff) ∧
    parseGguf b24 = PRes.ok ⟨3, 0, [], [], 32⟩ 24 := by
  have hb24 : parseGguf b24 = PRes.ok ⟨3, 0, [], [], 32⟩ 24 := by rfl
  by_cases h4 : 4 ≤ d.length
  · have hr32 : readU32 d 0 = .ok (leVal (d.take 4)) 4 := by
      simpa using @readU32_ok d 0 (by omega)
    by_cases hmg : leVal (d.take 4) = 0x46554747
    · have htake : d.take 4 = magicBytes := by
        refine leVal_inj _ _ ?_ ?_ (by decide) (by rw [hmg, leVal_magicBytes])
        · rw [List.length_take]
          simp [Nat.min_eq_left h4]
          rfl
        · exact fun b hb => hbytes b (List.mem_of_mem_take hb)
      by_cases h8 : 8 ≤ d.length
      · have hr32b : readU32 d 4 = .ok (leVal ((d.drop 4).take 4)) 8 := by
          simpa using @readU32_ok d 4 (by omega)
        by_cases hver : 2 ≤ leVal ((d.drop 4).take 4) ∧
            leVal ((d.drop 4).take 4) ≤ 3
        · have hshape : parseGguf d
              = parseBody (d.length + 1) (leVal ((d.drop 4).take 4)) d 8 := by
            simp only [parseGguf, parseM, pmBind_def, hr32, if_pos hmg,
              pmPure_def, hr32b, if_pos hver]
          obtain ⟨hm1, hm2⟩ := @benign_discriminators (parseGguf d)
            (by rw [hshape]; exact benign_parseBody _ _ d 8)
          refine ⟨?_, ?_, parse_ok_dataOffset, hb24⟩
          · rw [hm1]
            simp only [Bool.false_eq_true, false_iff]
            rintro ⟨_, hne⟩
            exact hne htake
          · rw [hm2]
            simp only [Bool.false_eq_true, false_iff]
            rintro ⟨_, _, hnv⟩
            exact hnv hver
        · have hshape : parseGguf d
              = .err (.unsupportedGgufVersion (leVal ((d.drop 4).take 4))) := by
            simp only [parseGguf, parseM, pmBind_def, hr32, if_pos hmg,
              pmPure_def, hr32b, if_neg hver, pfail]
          refine ⟨?_, ?_, parse_ok_dataOffset, hb24⟩
          · rw [hshape]
            simp only [presIsInvalidMagic, Bool.false_eq_true, false_iff]
            rintro ⟨_, hne⟩
            exact hne htake
          · rw [hshape]
            simp only [presIsUnsupportedVersion, true_iff]
            exact ⟨h8, htake, hver⟩
      · have hshape : parseGguf d = .err (.ggufParseEof 4 4 d.length) := by
          simp only [parseGguf, parseM, pmBind_def, hr32, if_pos hmg,
            pmPure_def, @readU32_err d 4 (by omega)]
        refine ⟨?_, ?_, parse_ok_dataOffset, hb24⟩
        · rw [hshape]
          simp only [presIsInvalidMagic, Bool.false_eq_true, false_iff]
          rintro ⟨_, hne⟩
          exact hne htake
        · rw [hshape]
          simp only [presIsUnsupportedVersion, Bool.false_eq_true, false_iff]
          rintro ⟨h8c, _⟩
          omega
    · have hne : d.take 4 ≠ magicBytes := fun hcontra => by
        rw [hcontra, leVal_magicBytes] at hmg
        exact hmg rfl
      have hshape : parseGguf d
          = .err (.invalidGgufMagic (leVal (d.take 4))) := by
        simp only [parseGguf, parseM, pmBind_def, hr32, if_neg hmg, pfail]
      refine ⟨?_, ?_, parse_ok_dataOffset, hb24⟩
      · rw [hshape]
        simp only [presIsInvalidMagic, true_iff]
        exact ⟨h4, hne⟩
      · rw [hshape]
        simp only [presIsUnsupportedVersion, Bool.false_eq_true, false_iff]
        rintro ⟨_, htk, _⟩
        exact hne htk
  · have hshape : parseGguf d = .err (.ggufParseEof 0 4 d.length) := by
      unfold parseGguf parseM
      rw [pmBind_def, readU32_err (by omega)]
    refine ⟨?_, ?_, parse_ok_dataOffset, hb24⟩
    · rw [hshape]
      simp only [presIsInvalidMagic, Bool.false_eq_true, false_iff]
      rintro ⟨h4c, _⟩
      omega
    · rw [hshape]
      simp only [presIsUnsupportedVersion, Bool.false_eq_true, false_iff]
      rintro ⟨h8c, _⟩
      omega

theorem parse_header_spec_witness :
    (∀ b ∈ b24, b < 256) ∧ parseGguf b24 = PRes.ok ⟨3, 0, [], [], 32⟩ 24 :=
  ⟨by decide, (parse_header_spec b24 (by decide)).2.2.2⟩

/-! ### Loader (claims C5, C7) -/

theorem find?_filter_of_imp {α : Type} (p q : α → Bool) :
    ∀ (l : List α), (∀ x, p x = true → q x = true) →
      (l.filter q).find? p = l.find? p := by
  intro l himp
  induction l with
  | nil => rfl
  | cons x xs ih =>
    by_cases hq : q x = true
    · rw [List.filter_cons_of_pos hq]
      by_cases hp : p x = true
      · rw [List.find?_cons_of_pos _ hp, List.find?_cons_of_pos _ hp]
      · rw [List.find?_cons_of_neg _ (by simpa using hp),
          List.find?_cons_of_neg _ (by simpa using hp), ih]
    · rw [List.filter_cons_of_neg (by simpa using hq)]
      have hp : p x = false := by
        by_contra hc
        exact hq (himp x (by simpa using hc))
      rw [List.find?_cons_of_neg _ (by simp [hp]), ih]

theorem storeGet_upload_self (st : Store) (n b : List Nat) :
    storeGet (upload st n b) n = some b := by
  unfold storeGet upload
  rw [List.find?_append]
  have hnone : (st.filter (fun e => !(e.1 == n))).find? (fun e => e.1 == n)
      = none := by
    rw [List.find?_eq_none]
    intro x hx
    have := (List.mem_filter.mp hx).2
    simpa using this
  rw [hnone]
  simp

theorem storeGet_upload_ne (st : Store) (n b m : List Nat) (h : m ≠ n) :
    storeGet (upload st n b) m = storeGet st m := by
  unfold storeGet upload
  rw [List.find?_append]
  have h2 : ((([(n, b)] : Store)).find? (fun e => e.1 == m)) = none := by
    rw [List.find?_eq_none]
    intro x hx
    rcases List.mem_singleton.mp hx with rfl
    simpa using fun hc => h hc.symm
  rw [h2, find?_filter_of_imp]
  · simp
  · intro x hx
    have hx2 : x.1 = m := by simpa using hx
    simp [hx2]
    exact fun hc => h (hc ▸ rfl)

theorem uploadSharded_small {st : Store} {n data : List Nat} {maxB : Nat}
    (h : data.length ≤ maxB) :
    uploadSharded st n data maxB = upload st n data := by
  unfold uploadSharded
  rw [if_pos h]

theorem storeGet_addDummy_ne {st : Store} {e : List Nat × Nat} {n : List Nat}
    (h : e.1 ≠ n) : storeGet (addDummy st e) n = storeGet st n := by
  unfold addDummy
  split
  · rfl
  · exact storeGet_upload_ne st e.1 _ n (fun hc => h hc.symm)

theorem foldl_addDummy_not_mem :
    ∀ (entries : List (List Nat × Nat)) (s : Store) (n : List Nat),
      (∀ e ∈ entries, e.1 ≠ n) →
      storeGet (entries.foldl addDummy s) n = storeGet s n := by
  intro entries
  induction entries with
  | nil => intro s n _; rfl
  | cons e rest ih =>
    intro s n hne
    rw [List.foldl_cons, ih _ _ (fun x hx => hne x (List.mem_cons_of_mem _ hx)),
      storeGet_addDummy_ne (hne e (List.mem_cons_self e rest))]

theorem foldl_addDummy_missing :
    ∀ (entries : List (List Nat × Nat)) (st : Store) (n : List Nat) (dim : Nat),
      storeHas st n = false → (n, dim) ∈ entries →
      (entries.map (·.1)).Nodup →
      storeGet (entries.foldl addDummy st) n
        = some ((List.replicate dim oneF32).flatten) := by
  intro entries
  induction entries with
  | nil => intro st n dim _ hmem _; cases hmem
  | cons e rest ih =>
    intro st n dim hmiss hmem hnd
    have hnd2 : e.1 ∉ rest.map (·.1) ∧ (rest.map (·.1)).Nodup := by
      rw [List.map_cons] at hnd
      exact List.nodup_cons.mp hnd
    rcases List.mem_cons.mp hmem with heq | hmem2
    · subst heq
      rw [List.foldl_cons]
      have hup : addDummy st (n, dim)
          = upload st n ((List.replicate dim oneF32).flatten) := by
        unfold addDummy
        rw [if_neg (by simp [hmiss])]
      rw [hup]
      have hrest : ∀ x ∈ rest, x.1 ≠ n := by
        intro x hx hc
        apply hnd2.1
        show n ∈ rest.map (·.1)
        rw [← hc]
        exact List.mem_map_of_mem _ hx
      rw [foldl_addDummy_not_mem rest _ n hrest]
      exact storeGet_upload_self st n _
    · have hhead : e.1 ≠ n := by
        intro hc
        have hn : n ∈ rest.map (·.1) := by
          have := List.mem_map_of_mem (fun x => x.1) hmem2
          simpa using this
        exact hnd2.1 (hc ▸ hn)
      rw [List.foldl_cons]
      refine ih (addDummy st e) n dim ?_ hmem2 hnd2.2
      unfold storeHas
      rw [storeGet_addDummy_ne hhead]
      exact hmiss

theorem foldl_flatMap_addDummy :
    ∀ (l : List Nat) (g : Nat → List (List Nat × Nat)) (st : Store),
      ((l.flatMap g).foldl addDummy st)
        = l.foldl (fun s i => (g i).foldl addDummy s) st := by
  intro l
  induction l with
  | nil => intro g st; rfl
  | cons a as ih =>
    intro g st
    rw [List.flatMap_cons, List.foldl_append, List.foldl_cons, ih]

theorem createDummyScales_eq_flat (st : Store) (cfg : ConfigE) :
    createDummyScales st cfg = (scaleSchema cfg).foldl addDummy st := by
  unfold createDummyScales scaleSchema
  rw [List.foldl_append, foldl_flatMap_addDummy]
  rfl

/-- Claim C5 (counterexample): when the packed prefix exceeds the device
binding limit, `upload_sharded` stores only shard 0's bytes under the
canonical name (the full prefix lives in `.shard_{k}` entries), so "the
first ceil(numel/4) bytes are uploaded under the remapped canonical name"
fails: here the prefix is `[10, 20]` but the name maps to `[10]`. -/
theorem i2s_sharded_alias :
    storeGet (storeOfLRes (processTensor
        ([10, 20] ++ [1, 2, 3, 4] ++ List.replicate 28 0) 0 1 []
        ⟨ascii "token_embd.weight", 1, [8], 36, 0⟩))
      (ascii "model.embed_tokens.weight") = some [10] ∧
    some [10] ≠ some ([10, 20] : List Nat) ∧
    ((⟨ascii "token_embd.weight", 1, [8], 36, 0⟩ : TInfo).shape.foldl (· * ·) 1
        + 3) / 4 = 2 := by
  refine ⟨by decide, by decide, by decide⟩

/-- Claim C5 (amended): an I2_S tensor consumes exactly
`ceil(numel/4) + 32` bytes from the data region; the packed prefix is
uploaded (via the sharded path: it lands whole under the remapped
canonical name whenever it fits in one device binding, else it is split
into `.shard_{k}` parts with the base name aliasing shard 0); the scale
tensor under `.weight → .weight_scale` holds the first 4 bytes of the
trailing block (the `f32` round trip is byte-identity) repeated
`shape[1]` times (1 when fewer than two dimensions); and after all
uploads any still-missing `weight_scale` of the canonical schema is
synthesized as all-ones of the schema's length. -/
theorem i2s_upload_spec (data : List Nat) (off0 maxB : Nat) (st : Store)
    (t : TInfo) (htype : t.ttype = 36)
    (hin : off0 + t.offset + ((t.shape.foldl (· * ·) 1 + 3) / 4 + 32)
      ≤ data.length)
    (hsz : (t.shape.foldl (· * ·) 1 + 3) / 4 ≤ maxB)
    (hneq : replaceAll (ascii ".weight") (ascii ".weight_scale")
      (remapGgufName t.name) ≠ remapGgufName t.name) :
    tensorByteSize t = .ok ((t.shape.foldl (· * ·) 1 + 3) / 4 + 32) ∧
    lresIsOk (processTensor data off0 maxB st t) = true ∧
    storeGet (storeOfLRes (processTensor data off0 maxB st t))
        (remapGgufName t.name)
      = some ((data.drop (off0 + t.offset)).take
          ((t.shape.foldl (· * ·) 1 + 3) / 4)) ∧
    storeGet (storeOfLRes (processTensor data off0 maxB st t))
        (replaceAll (ascii ".weight") (ascii ".weight_scale")
          (remapGgufName t.name))
      = some ((List.replicate (t.shape.getD 1 1)
          ((data.drop (off0 + t.offset + (t.shape.foldl (· * ·) 1 + 3) / 4)).take
            4)).flatten) ∧
    (∀ (st2 : Store) (cfg : ConfigE) (n : List Nat) (dim : Nat),
      storeHas st2 n = false → (n, dim) ∈ scaleSchema cfg →
      ((scaleSchema cfg).map (·.1)).Nodup →
      storeGet (createDummyScales st2 cfg) n
        = some ((List.replicate dim oneF32).flatten)) := by
  have hnumel : t.shape.foldl (· * ·) 1 = t.shape.foldl (· * ·) 1 := rfl
  set packed := (t.shape.foldl (· * ·) 1 + 3) / 4 with hpacked
  have hbs : tensorByteSize t = .ok (packed + 32) := by
    unfold tensorByteSize
    rw [if_pos htype]
  have hdropLen : (data.drop (off0 + t.offset)).length = data.length - (off0 + t.offset) := by
    simp
  have htdLen : ((data.drop (off0 + t.offset)).take (packed + 32)).length
      = packed + 32 := by
    rw [List.length_take, hdropLen]
    omega
  have hweight : ((data.drop (off0 + t.offset)).take (packed + 32)).take packed
      = (data.drop (off0 + t.offset)).take packed := by
    rw [List.take_take]
    congr 1
    omega
  have hscale : (((data.drop (off0 + t.offset)).take (packed + 32)).drop
        packed).take 4
      = (data.drop (off0 + t.offset + packed)).take 4 := by
    rw [List.drop_take, List.take_take, List.drop_drop]
    congr 1
    omega
  have hwLen : ((data.drop (off0 + t.offset)).take packed).length = packed := by
    rw [List.length_take, hdropLen]
    omega
  have hproc : processTensor data off0 maxB st t
      = LRes.ok (upload
          (upload st (remapGgufName t.name)
            ((data.drop (off0 + t.offset)).take packed))
          (replaceAll (ascii ".weight") (ascii ".weight_scale")
            (remapGgufName t.name))
          ((List.replicate (t.shape.getD 1 1)
            ((data.drop (off0 + t.offset + packed)).take 4)).flatten)) := by
    simp only [processTensor, hbs]
    rw [if_pos (by omega : off0 + t.offset + (packed + 32) ≤ data.length)]
    rw [if_pos htype]
    rw [hweight, hscale]
    rw [uploadSharded_small (by rw [hwLen]; exact hsz)]
  refine ⟨hbs, by rw [hproc]; rfl, ?_, ?_, ?_⟩
  · rw [hproc]
    show storeGet (upload _ _ _) _ = _
    rw [storeGet_upload_ne _ _ _ _ (Ne.symm hneq)]
    exact storeGet_upload_self _ _ _
  · rw [hproc]
    exact storeGet_upload_self _ _ _
  · intro st2 cfg n dim hmiss hmem hnd
    rw [createDummyScales_eq_flat]
    exact foldl_addDummy_missing _ st2 n dim hmiss hmem hnd

theorem i2s_upload_spec_witness :
    (⟨ascii "token_embd.weight", 2, [4, 2], 36, 0⟩ : TInfo).ttype = 36 ∧
    storeGet (storeOfLRes (processTensor
        ([10, 20] ++ [1, 2, 3, 4] ++ List.replicate 28 0) 0 100 []
        ⟨ascii "token_embd.weight", 2, [4, 2], 36, 0⟩))
      (ascii "model.embed_tokens.weight") = some [10, 20] ∧
    storeGet (storeOfLRes (processTensor
        ([10, 20] ++ [1, 2, 3, 4] ++ List.replicate 28 0) 0 100 []
        ⟨ascii "token_embd.weight", 2, [4, 2], 36, 0⟩))
      (ascii "model.embed_tokens.weight_scale")
      = some [1, 2, 3, 4, 1, 2, 3, 4] := by
  have h := i2s_upload_spec ([10, 20] ++ [1, 2, 3, 4] ++ List.replicate 28 0)
    0 100 [] ⟨ascii "token_embd.weight", 2, [4, 2], 36, 0⟩
    (by decide) (by decide) (by decide) (by decide)
  refine ⟨by decide, ?_, ?_⟩
  · have h3 := h.2.2.1
    rw [show remapGgufName (ascii "token_embd.weight")
        = ascii "model.embed_tokens.weight" from by decide] at h3
    rw [h3]
    decide
  · have h4 := h.2.2.2.1
    rw [show replaceAll (ascii ".weight") (ascii ".weight_scale")
          (remapGgufName (ascii "token_embd.weight"))
        = ascii "model.embed_tokens.weight_scale" from by decide] at h4
    rw [h4]
    decide

/-- Claim C7 (counterexample): a directory containing a tensor literally
named `lm_head.weight` and none named `output.weight` still gets
`tie_word_embeddings = true` — `load_gguf` checks only for
`output.weight` (`src/model/loader.rs` line 87), so the claim's "flag is
false when `lm_head.weight` exists" is wrong. -/
theorem tie_flag_lm_head_only :
    (loadGguf ⟨128256, 2560, 6912, 30, 20, 5, false⟩ []
        ⟨3, 1, [], [⟨ascii "lm_head.weight", 1, [4], 0, 0⟩], 32⟩
        100).2.tieWordEmbeddings = true ∧
    (⟨ascii "lm_head.weight", 1, [4], 0, 0⟩ : TInfo).name
      = ascii "lm_head.weight" := by
  refine ⟨by decide, rfl⟩

/-- Claim C7 (amended): the loader sets `tie_word_embeddings` to true
iff no tensor named `output.weight` exists in the directory — the name
`lm_head.weight` plays no role, and the flag depends neither on the
metadata nor on the flag of the metadata-derived base config. -/
theorem tie_flag_spec (baseCfg : ConfigE) (data : List Nat) (g : GgufFileE)
    (maxB : Nat) :
    ((loadGguf baseCfg data g maxB).2.tieWordEmbeddings = true ↔
      ∀ t ∈ g.tensors, t.name ≠ ascii "output.weight") ∧
    (∀ (b : Bool) (md2 : List (List Nat × GVal)) (data2 : List Nat)
        (maxB2 : Nat),
      (loadGguf { baseCfg with tieWordEmbeddings := b } data2
          { g with metadata := md2 } maxB2).2.tieWordEmbeddings
        = (loadGguf baseCfg data g maxB).2.tieWordEmbeddings) := by
  constructor
  · show (loadConfig baseCfg g.tensors).tieWordEmbeddings = true ↔ _
    unfold loadConfig
    simp [List.any_eq_true]
  · intro b md2 data2 maxB2
    rfl

/-! ### Top-k selection (claim C1) -/

theorem Desc.le {i j : Nat} (h : Desc i j) : i ≤ j := by
  induction h with
  | refl i => exact Nat.le_refl i
  | left i _ ih => omega
  | right i _ ih => omega

theorem Desc.child_left (i : Nat) : Desc i (2*i+1) := .left i (.refl _)

theorem Desc.child_right (i : Nat) : Desc i (2*i+2) := .right i (.refl _)

theorem Desc.trans {i j k : Nat} (hij : Desc i j) : Desc j k → Desc i k := by
  induction hij with
  | refl => exact id
  | left i _ ih => exact fun hjk => .left i (ih hjk)
  | right i _ ih => exact fun hjk => .right i (ih hjk)

theorem Desc.parent_of_lt {m c : Nat} (h : Desc m c) : m < c →
    Desc m ((c-1)/2) := by
  induction h with
  | refl i => exact fun hlt => absurd hlt (by omega)
  | left i h ih =>
    rename_i k
    intro _
    by_cases hc : k = 2*i+1
    · subst hc
      rw [show (2*i+1-1)/2 = i from by omega]
      exact .refl i
    · have h2 : 2*i+1 < k := by
        have := h.le
        omega
      exact .left i (ih h2)
  | right i h ih =>
    rename_i k
    intro _
    by_cases hc : k = 2*i+2
    · subst hc
      rw [show (2*i+2-1)/2 = i from by omega]
      exact .refl i
    · have h2 : 2*i+2 < k := by
        have := h.le
        omega
      exact .right i (ih h2)

theorem not_desc_of_lt {m p : Nat} (h : p < m) : ¬Desc m p :=
  fun hd => absurd hd.le (by omega)

theorem desc_sibling_not_left (i : Nat) : ¬Desc (2*i+1) (2*i+2) := by
  intro h
  have := (h.parent_of_lt (by omega)).le
  simp [show (2*i+2-1)/2 = i from by omega] at this
  omega

theorem desc_sibling_not_right (i : Nat) : ¬Desc (2*i+2) (2*i+1) :=
  not_desc_of_lt (by omega)

/-- Along any subtree chain whose positions stay `≥ j`, heap values are
non-decreasing downward. -/
theorem pairsOK_chain {α : Type} [LinearOrder α] {v : Nat → α} {n : Nat}
    {h : List Nat} {j : Nat} (hp : PairsOK v n h j) {a b : Nat}
    (hd : Desc a b) : j ≤ a → b < n → v (idxAt h a) ≤ v (idxAt h b) := by
  induction hd with
  | refl => intro _ _; exact le_refl _
  | left a hsub ih =>
    rename_i k
    intro hja hbn
    have hub : 2*a+1 ≤ k := hsub.le
    have h1 : v (idxAt h a) ≤ v (idxAt h (2*a+1)) := by
      have h2 := hp (2*a+1) (by omega) (by omega) (by omega)
      have harith : (2*a+1-1)/2 = a := by omega
      rwa [harith] at h2
    exact le_trans h1 (ih (by omega) hbn)
  | right a hsub ih =>
    rename_i k
    intro hja hbn
    have hub : 2*a+2 ≤ k := hsub.le
    have h1 : v (idxAt h a) ≤ v (idxAt h (2*a+2)) := by
      have h2 := hp (2*a+2) (by omega) (by omega) (by omega)
      have harith : (2*a+2-1)/2 = a := by omega
      rwa [harith] at h2
    exact le_trans h1 (ih (by omega) hbn)

theorem idxAt_set_self {l : List Nat} {p : Nat} (hp : p < l.length)
    (b : Nat) : idxAt (l.set p b) p = b := by
  unfold idxAt
  rw [List.getD_eq_getElem?_getD, List.getElem?_set_self (by omega)]
  rfl

theorem idxAt_set_ne (l : List Nat) (p b q : Nat) (h : q ≠ p) :
    idxAt (l.set p b) q = idxAt l q := by
  unfold idxAt
  rw [List.getD_eq_getElem?_getD, List.getElem?_set_ne (fun hc => h hc.symm),
    ← List.getD_eq_getElem?_getD]

theorem idxAt_eq_getElem {l : List Nat} {p : Nat} (hp : p < l.length) :
    idxAt l p = l[p] := by
  unfold idxAt
  rw [List.getD_eq_getElem?_getD, List.getElem?_eq_getElem hp]
  rfl

/-- `heap.swap(i, m)` is a permutation of `heap`. -/
theorem perm_swap_set (l : List Nat) (i m : Nat) (hi : i < l.length)
    (hm : m < l.length) :
    ((l.set i (l.getD m 0)).set m (l.getD i 0)).Perm l := by
  rw [List.perm_iff_count]
  intro a
  have hm2 : m < (l.set i (l.getD m 0)).length := by simpa using hm
  have hgm : l.getD m 0 = l[m] := idxAt_eq_getElem hm
  have hgi : l.getD i 0 = l[i] := idxAt_eq_getElem hi
  have hset_m : (l.set i (l.getD m 0))[m] = l[m] := by
    by_cases him : i = m
    · subst him
      rw [List.getElem_set_self]
      exact hgm
    · rw [List.getElem_set_ne him]
  rw [List.count_set _ _ _ _ hm2, List.count_set _ _ _ _ hi, hset_m, hgm, hgi]
  have hcle : (if (l[i] == a) = true then 1 else 0) ≤ List.count a l := by
    split
    · rename_i hia
      exact List.count_pos_iff.mpr (by
        have : l[i] = a := by simpa using hia
        exact this ▸ List.getElem_mem hi)
    · omega
  omega

/-- The swap-and-recurse step of `sift_down`: if `m` is a child of `i`
holding a strictly smaller value than `i` and no larger than its sibling,
swapping and sifting from `m` restores the heap ordering from `i` on,
permutes only the subtree of `i`, and leaves everything else in place.
`ih` is the induction hypothesis for the smaller fuel. -/
theorem siftDown_step {α : Type} [LinearOrder α] (v : Nat → α) (n fuel : Nat)
    (h : List Nat) (i m : Nat) (hlen : h.length = n) (hfuel : n ≤ fuel + m)
    (hpre : PairsOK v n h (i+1)) (hm_child : m = 2*i+1 ∨ m = 2*i+2)
    (hmn : m < n) (hvm : v (h.getD m 0) < v (h.getD i 0))
    (hsib : ∀ c, (c = 2*i+1 ∨ c = 2*i+2) → c ≠ m → c < n →
      v (h.getD m 0) ≤ v (h.getD c 0))
    (ih : ∀ (h2 : List Nat) (i2 : Nat), h2.length = n → n ≤ fuel + i2 →
      PairsOK v n h2 (i2+1) →
      (siftDownF v n fuel h2 i2).length = n ∧
      (siftDownF v n fuel h2 i2).Perm h2 ∧
      PairsOK v n (siftDownF v n fuel h2 i2) i2 ∧
      (∀ p, p < n → ¬Desc i2 p →
        idxAt (siftDownF v n fuel h2 i2) p = idxAt h2 p) ∧
      (∀ p, p < n → Desc i2 p →
        ∃ q, q < n ∧ Desc i2 q ∧
          idxAt (siftDownF v n fuel h2 i2) p = idxAt h2 q)) :
    (siftDownF v n fuel ((h.set i (h.getD m 0)).set m (h.getD i 0)) m).length
        = n ∧
    (siftDownF v n fuel ((h.set i (h.getD m 0)).set m (h.getD i 0)) m).Perm h ∧
    PairsOK v n (siftDownF v n fuel ((h.set i (h.getD m 0)).set m (h.getD i 0)) m) i ∧
    (∀ p, p < n → ¬Desc i p →
      idxAt (siftDownF v n fuel ((h.set i (h.getD m 0)).set m (h.getD i 0)) m) p
        = idxAt h p) ∧
    (∀ p, p < n → Desc i p →
      ∃ q, q < n ∧ Desc i q ∧
        idxAt (siftDownF v n fuel ((h.set i (h.getD m 0)).set m (h.getD i 0)) m) p
          = idxAt h q) := by
  have him : i < m := by rcases hm_child with rfl | rfl <;> omega
  have hin : i < n := lt_trans him hmn
  have hdesc_im : Desc i m := by
    rcases hm_child with rfl | rfl
    · exact Desc.child_left i
    · exact Desc.child_right i
  have hi_lt : i < h.length := by omega
  have hm_lt : m < h.length := by omega
  set h2 := (h.set i (h.getD m 0)).set m (h.getD i 0) with hh2
  have hlen2 : h2.length = n := by simp [hh2, hlen]
  have hgm : idxAt h2 i = idxAt h m := by
    rw [hh2, idxAt_set_ne _ _ _ _ (Nat.ne_of_lt him)]
    exact idxAt_set_self (by simpa using hi_lt) _
  have hgi : idxAt h2 m = idxAt h i :=
    idxAt_set_self (by simpa using hm_lt) _
  have hother : ∀ p, p ≠ i → p ≠ m → idxAt h2 p = idxAt h p := by
    intro p hpi hpm
    rw [hh2, idxAt_set_ne _ _ _ _ hpm, idxAt_set_ne _ _ _ _ hpi]
  have hperm2 : h2.Perm h := hh2 ▸ perm_swap_set h i m hi_lt hm_lt
  have hpre2 : PairsOK v n h2 (m+1) := by
    intro c hc0 hcn hmc
    have hcge : 2*((c-1)/2) + 1 ≤ c := by omega
    rw [hother _ (by omega) (by omega), hother _ (by omega) (by omega)]
    exact hpre c hc0 hcn (by omega)
  obtain ⟨ihlen, ihperm, ihpairs, ihframe, ihsub⟩ :=
    ih h2 m hlen2 (by omega) hpre2
  refine ⟨ihlen, ihperm.trans hperm2, ?_, ?_, ?_⟩
  · -- heap ordering from `i` on
    intro c hc0 hcn hic
    by_cases hpm : m ≤ (c-1)/2
    · exact ihpairs c hc0 hcn hpm
    · by_cases hpi : (c-1)/2 = i
      · have hc_child : c = 2*i+1 ∨ c = 2*i+2 := by omega
        have hri : idxAt (siftDownF v n fuel h2 m) i = idxAt h m := by
          rw [ihframe i hin (not_desc_of_lt him), hgm]
        by_cases hcm : c = m
        · subst hcm
          rw [hpi, hri]
          obtain ⟨q, hqn, hdmq, heq⟩ := ihsub c hcn (.refl c)
          rw [heq]
          by_cases hqm : q = c
          · subst hqm
            rw [hgi]
            exact le_of_lt hvm
          · have hqgt : c < q := lt_of_le_of_ne hdmq.le (Ne.symm hqm)
            rw [hother q (by omega) hqm]
            exact pairsOK_chain hpre hdmq (by omega) hqn
        · have hcnotdesc : ¬Desc m c := by
            rcases hm_child with hm1 | hm2 <;> rcases hc_child with hc1 | hc2
            · exact absurd (hc1.trans hm1.symm) hcm
            · rw [hm1]
              rw [hc2]
              exact desc_sibling_not_left i
            · rw [hm2]
              rw [hc1]
              exact desc_sibling_not_right i
            · exact absurd (hc2.trans hm2.symm) hcm
          have hci : c ≠ i := by rcases hc_child with rfl | rfl <;> omega
          rw [hpi, hri, ihframe c hcn hcnotdesc, hother c hci hcm]
          exact hsib c hc_child hcm hcn
      · have hpi_gt : i < (c-1)/2 := by omega
        have hplt : (c-1)/2 < m := by omega
        have hcge : 2*((c-1)/2) + 1 ≤ c := by omega
        have hcm : c ≠ m := by
          intro hceq
          rw [hceq] at hpi_gt
          rcases hm_child with hm1 | hm2
          · rw [hm1] at hpi_gt
            omega
          · rw [hm2] at hpi_gt
            omega
        have hcnotdesc : ¬Desc m c := by
          intro hd
          have hmc2 : m < c := lt_of_le_of_ne hd.le (fun hceq => hcm hceq.symm)
          have := (hd.parent_of_lt hmc2).le
          omega
        rw [ihframe c hcn hcnotdesc, hother c (by omega) hcm,
          ihframe ((c-1)/2) (by omega) (not_desc_of_lt hplt),
          hother _ (by omega) (by omega)]
        exact hpre c hc0 hcn (by omega)
  · -- frame: positions outside the subtree of `i` are untouched
    intro p hpn hnd
    have hpi : p ≠ i := fun hc => hnd (hc ▸ Desc.refl i)
    have hdm : ¬Desc m p := fun hc => hnd (hdesc_im.trans hc)
    have hpm : p ≠ m := fun hc => hdm (hc ▸ Desc.refl m)
    rw [ihframe p hpn hdm, hother p hpi hpm]
  · -- subtree values are drawn from the subtree of `i`
    intro p hpn hdip
    by_cases hdm : Desc m p
    · obtain ⟨q, hqn, hdmq, heq⟩ := ihsub p hpn hdm
      by_cases hqm : q = m
      · subst hqm
        exact ⟨i, hin, Desc.refl i, by rw [heq, hgi]⟩
      · have hqgt : q ≠ i := by
          have := hdmq.le
          omega
        exact ⟨q, hqn, hdesc_im.trans hdmq, by rw [heq, hother q hqgt hqm]⟩
    · have heq := ihframe p hpn hdm
      by_cases hpi : p = i
      · subst hpi
        exact ⟨m, hmn, hdesc_im, by rw [heq, hgm]⟩
      · have hpm : p ≠ m := fun hc => hdm (hc ▸ Desc.refl m)
        exact ⟨p, hpn, hdip, by rw [heq, hother p hpi hpm]⟩

/-- Full specification of `sift_down` (fuel form): starting at `i` with
all deeper pairs ordered, the result is a permutation of the input,
ordered from `i` on, touching only the subtree of `i`. -/
theorem siftDownF_spec {α : Type} [LinearOrder α] (v : Nat → α) (n : Nat) :
    ∀ (fuel : Nat) (h : List Nat) (i : Nat), h.length = n → n ≤ fuel + i →
      PairsOK v n h (i+1) →
      (siftDownF v n fuel h i).length = n ∧
      (siftDownF v n fuel h i).Perm h ∧
      PairsOK v n (siftDownF v n fuel h i) i ∧
      (∀ p, p < n → ¬Desc i p →
        idxAt (siftDownF v n fuel h i) p = idxAt h p) ∧
      (∀ p, p < n → Desc i p →
        ∃ q, q < n ∧ Desc i q ∧
          idxAt (siftDownF v n fuel h i) p = idxAt h q) := by
  intro fuel
  induction fuel with
  | zero =>
    intro h i hlen hni hpre
    refine ⟨hlen, List.Perm.refl h, ?_, fun p _ _ => rfl,
      fun p hp hd => ⟨p, hp, hd, rfl⟩⟩
    intro c hc0 hcn hic
    have : (c-1)/2 ≤ c - 1 := Nat.div_le_self _ _
    omega
  | succ fuel ih =>
    intro h i hlen hni hpre
    simp only [siftDownF]
    by_cases c1 : 2*i+1 < n ∧ v (h.getD (2*i+1) 0) < v (h.getD i 0)
    · rw [if_pos c1]
      by_cases c2 : 2*i+2 < n ∧ v (h.getD (2*i+2) 0) < v (h.getD (2*i+1) 0)
      · rw [if_pos c2, if_neg (by omega : ¬(2*i+2 = i))]
        refine siftDown_step v n fuel h i (2*i+2) hlen (by omega) hpre
          (Or.inr rfl) c2.1 (lt_trans c2.2 c1.2) ?_ ih
        intro c hc hcne _
        rcases hc with rfl | rfl
        · exact le_of_lt c2.2
        · exact absurd rfl hcne
      · rw [if_neg c2, if_neg (by omega : ¬(2*i+1 = i))]
        refine siftDown_step v n fuel h i (2*i+1) hlen (by omega) hpre
          (Or.inl rfl) c1.1 c1.2 ?_ ih
        intro c hc hcne hcn
        rcases hc with rfl | rfl
        · exact absurd rfl hcne
        · exact not_lt.mp (fun hv => c2 ⟨hcn, hv⟩)
    · rw [if_neg c1]
      by_cases c2 : 2*i+2 < n ∧ v (h.getD (2*i+2) 0) < v (h.getD i 0)
      · rw [if_pos c2, if_neg (by omega : ¬(2*i+2 = i))]
        refine siftDown_step v n fuel h i (2*i+2) hlen (by omega) hpre
          (Or.inr rfl) c2.1 c2.2 ?_ ih
        intro c hc hcne hcn
        rcases hc with rfl | rfl
        · exact le_of_lt (lt_of_lt_of_le c2.2
            (not_lt.mp (fun hv => c1 ⟨hcn, hv⟩)))
        · exact absurd rfl hcne
      · rw [if_neg c2, if_pos rfl]
        refine ⟨hlen, List.Perm.refl h, ?_, fun p _ _ => rfl,
          fun p hp hd => ⟨p, hp, hd, rfl⟩⟩
        intro c hc0 hcn hic
        by_cases hci : i+1 ≤ (c-1)/2
        · exact hpre c hc0 hcn hci
        · have hpi : (c-1)/2 = i := by omega
          have hc_child : c = 2*i+1 ∨ c = 2*i+2 := by omega
          rw [hpi]
          rcases hc_child with rfl | rfl
          · exact not_lt.mp (fun hv => c1 ⟨hcn, hv⟩)
          · exact not_lt.mp (fun hv => c2 ⟨hcn, hv⟩)

/-- Specification of `siftDown` itself. -/
theorem siftDown_spec {α : Type} [LinearOrder α] (v : Nat → α) (n : Nat)
    (h : List Nat) (i : Nat) (hlen : h.length = n) (hpre : PairsOK v n h (i+1)) :
    (siftDown v n h i).length = n ∧
    (siftDown v n h i).Perm h ∧
    PairsOK v n (siftDown v n h i) i := by
  obtain ⟨h1, h2, h3, _, _⟩ := siftDownF_spec v n (n - i) h i hlen (by omega) hpre
  exact ⟨h1, h2, h3⟩

/-- Every positive position is a descendant of its parent `(p-1)/2`. -/
theorem desc_parent (p : Nat) (hp : 0 < p) : Desc ((p-1)/2) p := by
  rcases Nat.even_or_odd p with ⟨t, ht⟩ | ⟨t, ht⟩
  · have hpar : (p-1)/2 = t-1 := by omega
    have hpt : p = 2*(t-1)+2 := by omega
    rw [hpar, hpt]
    exact Desc.child_right _
  · have hpar : (p-1)/2 = t := by omega
    have hpt : p = 2*t+1 := by omega
    rw [hpar, hpt]
    exact Desc.child_left _

/-- Every position is a descendant of the root. -/
theorem desc_root (p : Nat) : Desc 0 p := by
  induction p using Nat.strong_induction_on with
  | _ p ih =>
    rcases Nat.eq_zero_or_pos p with rfl | hp
    · exact Desc.refl 0
    · exact (ih ((p-1)/2) (by omega)).trans (desc_parent p hp)

/-- In a full min-heap the root value is a lower bound for every position. -/
theorem root_min {α : Type} [LinearOrder α] {v : Nat → α} {n : Nat}
    {h : List Nat} (hp : PairsOK v n h 0) (p : Nat) (hpn : p < n) :
    v (idxAt h 0) ≤ v (idxAt h p) :=
  pairsOK_chain hp (desc_root p) (Nat.zero_le _) hpn

theorem idxAt_mem {h : List Nat} {p : Nat} (hp : p < h.length) :
    idxAt h p ∈ h := by
  rw [idxAt_eq_getElem hp]
  exact List.getElem_mem hp

theorem mem_exists_idxAt {h : List Nat} {x : Nat} (hx : x ∈ h) :
    ∃ p, p < h.length ∧ idxAt h p = x := by
  obtain ⟨p, hp, hpe⟩ := List.mem_iff_getElem.mp hx
  exact ⟨p, hp, by rw [idxAt_eq_getElem hp, hpe]⟩

/-- The heap-build loop establishes the full heap ordering: starting from
pair validity above `j`, sifting down at `j-1, ..., 0` yields a permutation
ordered everywhere. -/
theorem buildPhase_spec {α : Type} [LinearOrder α] (v : Nat → α) (k : Nat) :
    ∀ (j : Nat) (h : List Nat), h.length = k → PairsOK v k h j →
      (buildPhase v k j h).length = k ∧
      (buildPhase v k j h).Perm h ∧
      PairsOK v k (buildPhase v k j h) 0 := by
  intro j
  induction j with
  | zero =>
    intro h hlen hp
    exact ⟨hlen, List.Perm.refl h, hp⟩
  | succ j ih =>
    intro h hlen hp
    obtain ⟨l1, l2, l3⟩ := siftDown_spec v k h j hlen hp
    obtain ⟨m1, m2, m3⟩ := ih (siftDown v k h j) l1 l3
    exact ⟨m1, m2.trans l2, m3⟩

/-- The scan loop of the top-k selection: processing candidates
`j, j+1, ..., j+c-1` preserves the heap shape and ordering, keeps the
entries distinct and within range, and maintains the dominance property
that every already-seen index outside the heap has value at most the
root's value. -/
theorem insertLoop_spec {α : Type} [LinearOrder α] (v : Nat → α) (k : Nat)
    (hk : 0 < k) :
    ∀ (c : Nat) (j : Nat) (h : List Nat),
      h.length = k → h.Nodup → (∀ x ∈ h, x < j) → PairsOK v k h 0 →
      (∀ x, x < j → x ∉ h → v x ≤ v (idxAt h 0)) →
      (insertLoop v k h (List.range' j c)).length = k ∧
      (insertLoop v k h (List.range' j c)).Nodup ∧
      (∀ x ∈ insertLoop v k h (List.range' j c), x < j + c) ∧
      PairsOK v k (insertLoop v k h (List.range' j c)) 0 ∧
      (∀ x, x < j + c → x ∉ insertLoop v k h (List.range' j c) →
        v x ≤ v (idxAt (insertLoop v k h (List.range' j c)) 0)) := by
  intro c
  induction c with
  | zero =>
    intro j h hlen hnd hmem hp hdom
    refine ⟨hlen, hnd, ?_, hp, ?_⟩
    · intro x hx
      exact lt_of_lt_of_le (hmem x hx) (by omega)
    · intro x hx hnx
      exact hdom x (by omega) hnx
  | succ c ih =>
    intro j h hlen hnd hmem hp hdom
    rw [List.range'_succ]
    show (insertLoop v k h (j :: List.range' (j+1) c)).length = k ∧ _
    by_cases hroot : v (h.getD 0 0) < v j
    · -- replace the root and sift down
      rw [insertLoop, if_pos hroot]
      obtain ⟨hd, tl, rfl⟩ : ∃ hd tl, h = hd :: tl := by
        cases h with
        | nil => simp at hlen; omega
        | cons hd tl => exact ⟨hd, tl, rfl⟩
      have hset : (hd :: tl).set 0 j = j :: tl := rfl
      have hlen' : (j :: tl).length = k := by
        simpa using hlen
      have hnd' : (j :: tl).Nodup := by
        rw [List.nodup_cons]
        refine ⟨fun hj => ?_, (List.nodup_cons.mp hnd).2⟩
        exact absurd (hmem j (List.mem_cons_of_mem hd hj)) (by omega)
      have hp' : PairsOK v k (j :: tl) 1 := by
        intro cc hc0 hcn hic
        have h1 : (cc-1)/2 ≠ 0 := by omega
        have h2 : cc ≠ 0 := by omega
        rw [show idxAt (j :: tl) ((cc-1)/2) = idxAt (hd :: tl) ((cc-1)/2) from ?_,
          show idxAt (j :: tl) cc = idxAt (hd :: tl) cc from ?_]
        · exact hp cc hc0 hcn (Nat.zero_le _)
        · rw [← hset, idxAt_set_ne _ _ _ _ h2]
        · rw [← hset, idxAt_set_ne _ _ _ _ h1]
      obtain ⟨s1, s2, s3⟩ := siftDown_spec v k (j :: tl) 0 hlen' hp'
      have hs2 : (siftDown v k (j :: tl) 0).Nodup := s2.nodup_iff.mpr hnd'
      have hmem' : ∀ x ∈ siftDown v k (j :: tl) 0, x < j + 1 := by
        intro x hx
        rcases List.mem_cons.mp (s2.mem_iff.mp hx) with rfl | hx'
        · omega
        · exact lt_of_lt_of_le (hmem x (List.mem_cons_of_mem hd hx')) (by omega)
      -- the old root value bounds the new root value
      have hold_new : v hd ≤ v (idxAt (siftDown v k (j :: tl) 0) 0) := by
        have h0lt : (0:Nat) < (siftDown v k (j :: tl) 0).length := by omega
        have hmemroot := idxAt_mem h0lt
        rcases List.mem_cons.mp (s2.mem_iff.mp hmemroot) with he | hx'
        · rw [he]
          exact le_of_lt (by simpa using hroot)
        · obtain ⟨p, hplt, hpe⟩ := mem_exists_idxAt (List.mem_cons_of_mem hd hx')
          rw [← hpe]
          have := root_min hp p (by omega)
          simpa [idxAt] using this
      have hdom' : ∀ x, x < j + 1 → x ∉ siftDown v k (j :: tl) 0 →
          v x ≤ v (idxAt (siftDown v k (j :: tl) 0) 0) := by
        intro x hx hnx
        have hxj : x ≠ j := by
          intro hxe
          subst hxe
          exact hnx (s2.mem_iff.mpr (List.mem_cons_self _ tl))
        have hxlt : x < j := by omega
        by_cases hxh : x ∈ hd :: tl
        · rcases List.mem_cons.mp hxh with rfl | hxtl
          · exact hold_new
          · exact absurd (s2.mem_iff.mpr (List.mem_cons.mpr (Or.inr hxtl))) hnx
        · have hxold : v x ≤ v hd := by
            have := hdom x hxlt hxh
            simpa [idxAt] using this
          exact le_trans hxold hold_new
      obtain ⟨r1, r2, r3, r4, r5⟩ :=
        ih (j+1) (siftDown v k (j :: tl) 0) s1 hs2 hmem' s3 hdom'
      refine ⟨r1, r2, ?_, r4, ?_⟩
      · intro x hx
        have := r3 x hx
        omega
      · intro x hx hnx
        exact r5 x (by omega) hnx
    · -- skip this candidate
      rw [insertLoop, if_neg hroot]
      have hmem' : ∀ x ∈ h, x < j + 1 := fun x hx => by
        have := hmem x hx
        omega
      have hdom' : ∀ x, x < j + 1 → x ∉ h → v x ≤ v (idxAt h 0) := by
        intro x hx hnx
        rcases Nat.lt_or_ge x j with hxj | hxj
        · exact hdom x hxj hnx
        · have hxe : x = j := by omega
          rw [hxe]
          have := not_lt.mp hroot
          simpa [idxAt] using this
      obtain ⟨r1, r2, r3, r4, r5⟩ := ih (j+1) h hlen hnd hmem' hp hdom'
      refine ⟨r1, r2, ?_, r4, ?_⟩
      · intro x hx
        have := r3 x hx
        omega
      · intro x hx hnx
        exact r5 x (by omega) hnx

/-- The complete top-k selection produces `k` distinct indices below `V`,
heap-ordered, whose root value dominates every unselected index. -/
theorem topkSelect_spec {α : Type} [LinearOrder α] (v : Nat → α) (k V : Nat)
    (hk : 0 < k) (hkV : k ≤ V) :
    (topkSelect v k V).length = k ∧
    (topkSelect v k V).Nodup ∧
    (∀ x ∈ topkSelect v k V, x < V) ∧
    PairsOK v k (topkSelect v k V) 0 ∧
    (∀ x, x < V → x ∉ topkSelect v k V →
      v x ≤ v (idxAt (topkSelect v k V) 0)) := by
  have hp0 : PairsOK v k (List.range k) (k/2) := by
    intro c hc0 hcn hic
    exfalso
    omega
  obtain ⟨b1, b2, b3⟩ := buildPhase_spec v k (k/2) (List.range k)
    (by simp) hp0
  have hbnd : (buildPhase v k (k/2) (List.range k)).Nodup :=
    b2.nodup_iff.mpr (List.nodup_range k)
  have hbm : ∀ x ∈ buildPhase v k (k/2) (List.range k), x < k := by
    intro x hx
    exact List.mem_range.mp (b2.mem_iff.mp hx)
  have hdom0 : ∀ x, x < k → x ∉ buildPhase v k (k/2) (List.range k) →
      v x ≤ v (idxAt (buildPhase v k (k/2) (List.range k)) 0) := by
    intro x hx hnx
    exact absurd (b2.mem_iff.mpr (List.mem_range.mpr hx)) hnx
  obtain ⟨r1, r2, r3, r4, r5⟩ := insertLoop_spec v k hk (V - k) k
    (buildPhase v k (k/2) (List.range k)) b1 hbnd hbm b3 hdom0
  have hkV' : k + (V - k) = V := by omega
  rw [hkV'] at r3 r5
  exact ⟨r1, r2, r3, r4, r5⟩

/-- Counting consequences of the top-k heap invariants: at least `k`
indices have value at least the root's value, and fewer than `k` have
value strictly above it. -/
theorem heap_counts {α : Type} [LinearOrder α] (v : Nat → α) (k V : Nat)
    (H : List Nat) (t : α) (hlen : H.length = k) (hnd : H.Nodup)
    (hmem : ∀ x ∈ H, x < V) (hp : PairsOK v k H 0)
    (hdom : ∀ x, x < V → x ∉ H → v x ≤ v (idxAt H 0)) (hk : 0 < k)
    (ht : t = v (idxAt H 0)) :
    k ≤ (List.range V).countP (fun i => t ≤ v i) ∧
    (List.range V).countP (fun i => t < v i) < k := by
  constructor
  · have hsub : H.toFinset ⊆
        ((List.range V).filter (fun i => t ≤ v i)).toFinset := by
      intro x hx
      rw [List.mem_toFinset] at hx ⊢
      rw [List.mem_filter]
      refine ⟨List.mem_range.mpr (hmem x hx), ?_⟩
      obtain ⟨p, hplt, hpe⟩ := mem_exists_idxAt hx
      rw [ht]
      have hmin := root_min hp p (by omega)
      rw [hpe] at hmin
      simpa using hmin
    calc k = H.toFinset.card := by
          rw [List.toFinset_card_of_nodup hnd, hlen]
      _ ≤ ((List.range V).filter (fun i => t ≤ v i)).toFinset.card :=
          Finset.card_le_card hsub
      _ ≤ ((List.range V).filter (fun i => t ≤ v i)).length :=
          List.toFinset_card_le _
      _ = (List.range V).countP (fun i => t ≤ v i) :=
          (List.countP_eq_length_filter _ _).symm
  · have hnd2 : ((List.range V).filter (fun i => t < v i)).Nodup :=
      (List.nodup_range V).filter _
    have hroot_mem : idxAt H 0 ∈ H := idxAt_mem (by omega)
    have hsub : ((List.range V).filter (fun i => t < v i)).toFinset ⊆
        H.toFinset.erase (idxAt H 0) := by
      intro x hx
      rw [List.mem_toFinset, List.mem_filter] at hx
      obtain ⟨hxr, hxp⟩ := hx
      have hxV : x < V := List.mem_range.mp hxr
      have hxt : t < v x := by simpa using hxp
      have hxH : x ∈ H := by
        by_contra hnx
        exact absurd (lt_of_lt_of_le hxt (ht ▸ hdom x hxV hnx))
          (lt_irrefl t)
      rw [Finset.mem_erase, List.mem_toFinset]
      refine ⟨fun hxe => ?_, hxH⟩
      rw [hxe, ← ht] at hxt
      exact lt_irrefl _ hxt
    calc (List.range V).countP (fun i => t < v i)
        = ((List.range V).filter (fun i => t < v i)).length :=
          List.countP_eq_length_filter _ _
      _ = ((List.range V).filter (fun i => t < v i)).toFinset.card :=
          (List.toFinset_card_of_nodup hnd2).symm
      _ ≤ (H.toFinset.erase (idxAt H 0)).card := Finset.card_le_card hsub
      _ = H.toFinset.card - 1 :=
          Finset.card_erase_of_mem (List.mem_toFinset.mpr hroot_mem)
      _ < k := by rw [List.toFinset_card_of_nodup hnd, hlen]; omega

/-- In a list sorted in non-increasing order, later entries are no
larger. -/
theorem sorted_ge_getElem {α : Type} [LinearOrder α] {s : List α}
    (hs : s.Sorted (· ≥ ·)) {i j : Nat} (hij : i ≤ j) (hj : j < s.length) :
    s.get ⟨j, hj⟩ ≤ s.get ⟨i, by omega⟩ := by
  rcases eq_or_lt_of_le hij with rfl | hlt
  · exact le_refl _
  · have := hs.rel_get_of_lt
      (show (⟨i, by omega⟩ : Fin s.length) < ⟨j, hj⟩ from Fin.mk_lt_mk.mpr hlt)
    simpa using this

/-- A position in a non-increasing sort is pinned down by the two counts:
if at least `k` entries are `≥ t` and fewer than `k` are `> t`, the entry
at position `k-1` equals `t`. -/
theorem sorted_getD_counts {α : Type} [LinearOrder α] (s : List α) (t d : α)
    (k : Nat) (hs : s.Sorted (· ≥ ·)) (hk : 0 < k) (hklen : k ≤ s.length)
    (hle : k ≤ s.countP (fun x => t ≤ x))
    (hlt : s.countP (fun x => t < x) < k) :
    s.getD (k-1) d = t := by
  have hidx : k - 1 < s.length := by omega
  rw [List.getD_eq_getElem?_getD, List.getElem?_eq_getElem hidx,
    Option.getD_some]
  by_contra hne
  rcases lt_or_gt_of_ne hne with hcase | hcase
  · -- `s[k-1] < t` would leave fewer than `k` entries `≥ t`
    have hdrop0 : (s.drop (k-1)).countP (fun x => t ≤ x) = 0 := by
      rw [List.countP_eq_zero]
      intro x hx
      obtain ⟨j, hj, hxj⟩ := List.mem_iff_getElem.mp hx
      rw [List.getElem_drop] at hxj
      have hj' : k - 1 + j < s.length := by
        simp only [List.length_drop] at hj
        omega
      have hxle : x ≤ s[k-1] := by
        rw [← hxj]
        exact sorted_ge_getElem hs (Nat.le_add_right _ _) hj'
      simp only [decide_eq_true_eq]
      exact not_le.mpr (lt_of_le_of_lt hxle hcase)
    have hcount : s.countP (fun x => t ≤ x) ≤ k-1 := by
      calc s.countP (fun x => t ≤ x)
          = (s.take (k-1) ++ s.drop (k-1)).countP (fun x => t ≤ x) := by
            rw [List.take_append_drop]
        _ = (s.take (k-1)).countP (fun x => t ≤ x)
            + (s.drop (k-1)).countP (fun x => t ≤ x) :=
            List.countP_append _ _ _
        _ = (s.take (k-1)).countP (fun x => t ≤ x) := by
            rw [hdrop0, Nat.add_zero]
        _ ≤ (s.take (k-1)).length := List.countP_le_length _
        _ ≤ k-1 := by simp only [List.length_take]; omega
    omega
  · -- `t < s[k-1]` would put at least `k` entries `> t`
    have htake : (s.take k).countP (fun x => t < x) = (s.take k).length := by
      rw [List.countP_eq_length]
      intro x hx
      obtain ⟨j, hj, hxj⟩ := List.mem_iff_getElem.mp hx
      have hjk : j < k := by
        simp only [List.length_take] at hj
        omega
      rw [List.getElem_take] at hxj
      have hge := sorted_ge_getElem hs (show j ≤ k-1 by omega) hidx
      simp only [decide_eq_true_eq]
      rw [← hxj]
      exact lt_of_lt_of_le hcase hge
    have hge : k ≤ s.countP (fun x => t < x) := by
      have hlen_take : (s.take k).length = k := by
        simp only [List.length_take]
        omega
      calc k = (s.take k).countP (fun x => t < x) := by
            rw [htake, hlen_take]
        _ ≤ s.countP (fun x => t < x) := by
            conv_rhs => rw [← List.take_append_drop k s]
            rw [List.countP_append]
            omega
    omega

/-- Reading every position of a list back off with `getD` reproduces the
list. -/
theorem map_getD_range (l : List F) :
    (List.range l.length).map (fun i => l.getD i ⊥) = l := by
  apply List.ext_getElem
  · simp
  · intro i h1 h2
    simp [List.getD_eq_getElem?_getD, List.getElem?_eq_getElem h2]

/-- The filter threshold `logits[heap[0]]` of the top-k step equals the
k-th largest logit, and the two counting facts that pin it down. -/
theorem topk_counts (l : List F) (k : Nat) (hk : 0 < k) (hkV : k < l.length) :
    topkThreshold l k = kthLargest l k ∧
    k ≤ l.countP (fun x => topkThreshold l k ≤ x) ∧
    l.countP (fun x => topkThreshold l k < x) < k := by
  obtain ⟨h1, h2, h3, h4, h5⟩ :=
    topkSelect_spec (fun i => l.getD i ⊥) k l.length hk (le_of_lt hkV)
  obtain ⟨hcle, hclt⟩ := heap_counts (fun i => l.getD i ⊥) k l.length
    (topkSelect (fun i => l.getD i ⊥) k l.length) (topkThreshold l k)
    h1 h2 h3 h4 h5 hk rfl
  have hmap : (List.range l.length).map (fun i => l.getD i ⊥) = l :=
    map_getD_range l
  have htrans : ∀ (p : F → Bool),
      l.countP p = (List.range l.length).countP (fun i => p (l.getD i ⊥)) := by
    intro p
    conv_lhs => rw [← hmap]
    rw [List.countP_map]
    rfl
  have hc1 : k ≤ l.countP (fun x => topkThreshold l k ≤ x) := by
    rw [htrans]
    exact hcle
  have hc2 : l.countP (fun x => topkThreshold l k < x) < k := by
    rw [htrans]
    exact hclt
  refine ⟨?_, hc1, hc2⟩
  have hsort : (List.insertionSort (· ≥ ·) l).Sorted (· ≥ ·) :=
    List.sorted_insertionSort (· ≥ ·) l
  have hperm : (List.insertionSort (· ≥ ·) l).Perm l :=
    List.perm_insertionSort (· ≥ ·) l
  have hlen : (List.insertionSort (· ≥ ·) l).length = l.length :=
    hperm.length_eq
  rw [kthLargest]
  symm
  exact sorted_getD_counts _ _ _ k hsort hk (by omega)
    (by rw [hperm.countP_eq]; exact hc1)
    (by rw [hperm.countP_eq]; exact hc2)

/-- **C1** (corrected): for `0 < k < V` the top-k step replaces exactly the
logits strictly below the k-th largest logit by `-∞` and keeps all others,
so at least `k` entries survive and fewer than `k` lie strictly above the
threshold — but ties at the k-th largest are all kept (no index-based
tie-breaking), so more than `k` entries can stay finite. -/
theorem topk_kth_largest (l : List F) (k : Nat) (hk : 0 < k)
    (hkV : k < l.length) :
    topkStep l k
        = l.map (fun x => if x < kthLargest l k then (⊥ : F) else x) ∧
    k ≤ l.countP (fun x => kthLargest l k ≤ x) ∧
    l.countP (fun x => kthLargest l k < x) < k := by
  obtain ⟨heq, hc1, hc2⟩ := topk_counts l k hk hkV
  rw [← heq]
  refine ⟨?_, hc1, hc2⟩
  simp only [topkStep]
  rw [if_pos ⟨hk, hkV⟩]

/-- On the all-ties input `[1,1,1]` with `k = 2`, the top-k filter keeps
all three entries finite: more than `k` entries survive, refuting the
"no more than k entries survive" part of the claim. -/
theorem topk_ties_counterexample :
    topkStep [((1:ℚ):F), ((1:ℚ):F), ((1:ℚ):F)] 2
        = [((1:ℚ):F), ((1:ℚ):F), ((1:ℚ):F)] ∧
    (topkStep [((1:ℚ):F), ((1:ℚ):F), ((1:ℚ):F)] 2).countP
        (fun x => x ≠ (⊥ : F)) = 3 := by
  decide

/-- Witness for `topk_kth_largest` at the concrete input `[3,1,2]`, `k = 2`. -/
theorem topk_kth_largest_witness :
    topkStep [((3:ℚ):F), ((1:ℚ):F), ((2:ℚ):F)] 2
        = [((3:ℚ):F), ((1:ℚ):F), ((2:ℚ):F)].map
            (fun x =>
              if x < kthLargest [((3:ℚ):F), ((1:ℚ):F), ((2:ℚ):F)] 2
              then (⊥ : F) else x) ∧
    2 ≤ [((3:ℚ):F), ((1:ℚ):F), ((2:ℚ):F)].countP
          (fun x => kthLargest [((3:ℚ):F), ((1:ℚ):F), ((2:ℚ):F)] 2 ≤ x) ∧
    [((3:ℚ):F), ((1:ℚ):F), ((2:ℚ):F)].countP
          (fun x => kthLargest [((3:ℚ):F), ((1:ℚ):F), ((2:ℚ):F)] 2 < x) < 2 :=
  topk_kth_largest [((3:ℚ):F), ((1:ℚ):F), ((2:ℚ):F)] 2 (by decide) (by decide)

end OxBitNet
